import Mathlib

set_option maxHeartbeats 1000000

namespace PyCfg

/-!
Shallow embedding of the pycfg grammar library.

The Python sources embedded here are `src/cfg/cfg.py` (symbols, production
rules, grammars), `src/util/mixin.py` (`Keyed` comparison), `src/cfg/slr.py`
(augmentation, LR(0) items and closures, FIRST/FOLLOW tables, the SLR parsing
table), `src/cfg/cnf.py` (conversion to Chomsky normal form) and
`src/cfg/aho_ullman.py` (top-down backtrack parser, CYK).

Python objects are modelled by plain inductive values; Python `set`s of
symbols by `Finset` or by lists with membership semantics, as noted at each
definition; Python exceptions by `Option`/`Except` results; unbounded `while`
loops by an explicit fuel parameter.
-/

/-- The symbol class hierarchy of `cfg.py`: `Nonterminal`,
`SubscriptedNonterminal`, `PrimedNonterminal`, `Terminal`, `Marker`,
`Epsilon`.  Python `==` on symbols demands the same concrete class, the same
identifier string and (for subscripted/primed nonterminals) the same
subscript / prime count, which is exactly structural equality of this type.
`Epsilon` always carries the identifier `''`, so it needs no field. -/
inductive Sym : Type where
  | nt (name : String)
  | subNT (name : String) (sub : Nat)
  | primeNT (name : String) (primes : Nat)
  | tm (name : String)
  | marker (name : String)
  | eps
deriving DecidableEq, Repr

namespace Sym

/-- `Symbol.name`: the identifier (`Epsilon` has the empty identifier). -/
def name : Sym → String
  | nt s => s
  | subNT s _ => s
  | primeNT s _ => s
  | tm s => s
  | marker s => s
  | eps => ""

/-- `Symbol.is_nonterminal`, true on `Nonterminal` and its subclasses. -/
def isNonterminal : Sym → Bool
  | nt _ => true
  | subNT _ _ => true
  | primeNT _ _ => true
  | _ => false

/-- `Symbol.is_terminal`, true on `Terminal` and its subclasses
(`Marker`, `Epsilon`). -/
def isTerminal : Sym → Bool
  | tm _ => true
  | marker _ => true
  | eps => true
  | _ => false

/-- `Symbol.sort_num` as overridden in each class: `Nonterminal` (and its
subscripted/primed subclasses) `-1`, `Terminal` `1`, `Epsilon` `2`,
`Marker` `3`. -/
def sortNum : Sym → Int
  | nt _ => -1
  | subNT _ _ => -1
  | primeNT _ _ => -1
  | tm _ => 1
  | eps => 2
  | marker _ => 3

/-- `Symbol.__key__`: the pair `(sort_num, name)`.  Note that the subscript /
prime count is not part of the key. -/
def key (s : Sym) : Int × String := (s.sortNum, s.name)

end Sym

/-- `Keyed.__lt__` on symbols: Python tuple comparison of the two keys
(compare the ranks, then, if equal, the identifier strings). -/
def symLt (s t : Sym) : Prop :=
  s.sortNum < t.sortNum ∨ (s.sortNum = t.sortNum ∧ s.name < t.name)

instance : DecidablePred fun p : Sym × Sym => symLt p.1 p.2 := by
  intro p; unfold symLt; infer_instance

instance (s t : Sym) : Decidable (symLt s t) := by
  unfold symLt; infer_instance

/-- `ProductionRule`: an immutable pair of a left side symbol and a list of
right side symbols; equality is structural. -/
structure Rule where
  left_side : Sym
  right_side : List Sym
deriving DecidableEq, Repr

/-- `ContextFreeGrammar`.  The stored fields are the production list, the
start symbol and the "extra" nonterminals/terminals remembered by the
4-tuple constructor (symbols declared but not occurring in any rule); the
`nonterminals` / `terminals` properties are recomputed from the rules, as in
the Python class.  The extra fields are kept as lists with membership
semantics. -/
structure CFG where
  productions : List Rule
  start : Sym
  extraN : List Sym
  extraT : List Sym
deriving DecidableEq, Repr

namespace CFG

/-- `ContextFreeGrammar.nonterminals` (as a list whose membership agrees with
the Python set): `Nonterminal` instances occurring on right sides, all left
sides, and the extra nonterminals. -/
def nontermList (G : CFG) : List Sym :=
  (G.productions.flatMap fun p => p.right_side.filter Sym.isNonterminal) ++
    G.productions.map Rule.left_side ++ G.extraN

/-- `ContextFreeGrammar.terminals` (as a list whose membership agrees with
the Python set): `Terminal` instances occurring on right sides plus the extra
terminals. -/
def termList (G : CFG) : List Sym :=
  (G.productions.flatMap fun p => p.right_side.filter Sym.isTerminal) ++ G.extraT

/-- `ContextFreeGrammar.productions_with_left_side`. -/
def productionsWithLeftSide (G : CFG) (A : Sym) : List Rule :=
  G.productions.filter fun p => p.left_side == A

/-- `ContextFreeGrammar.has_empty_rules`. -/
def hasEmptyRules (G : CFG) : Bool :=
  G.productions.any fun p => p.right_side.isEmpty

end CFG

/-- `ContextFreeGrammar(list)`: nonterminals, terminals and start are
inferred; the left side of the first rule is the start.  Raises if the list
is empty. -/
def cfgOfProductions (ps : List Rule) : Option CFG :=
  match ps with
  | [] => none
  | p :: _ => some ⟨ps, p.left_side, [], []⟩

/-- The validations of `ContextFreeGrammar._check_tuple`. -/
def checkTuple (N T : List Sym) (P : List Rule) (S : Sym) : Bool :=
  N.all Sym.isNonterminal && T.all Sym.isTerminal && !P.isEmpty &&
    (P.all fun p =>
      decide (p.left_side ∈ N) &&
        p.right_side.all fun s => decide (s ∈ T) || decide (s ∈ N)) &&
    S.isNonterminal && decide (S ∈ N)

/-- `ContextFreeGrammar(Nu, Sigma, P, S)`: validate, then store the
productions, the start symbol, and the declared symbols that do not occur on
any right side as extras (`_init_tuple`). -/
def cfgOfTuple (N T : List Sym) (P : List Rule) (S : Sym) : Option CFG :=
  if checkTuple N T P S then
    some ⟨P, S,
      N.filter fun n =>
        !((P.flatMap fun p => p.right_side.filter Sym.isNonterminal).contains n),
      T.filter fun t =>
        !((P.flatMap fun p => p.right_side.filter Sym.isTerminal).contains t)⟩
  else none

/-! ### Grammar augmentation (`slr.py`: `is_augmented`, `augmented`,
`PrimedNonterminal.next_unused`) -/

/-- The search loop of `_next_unused` in `cfg.py`, specialised to
`PrimedNonterminal`: starting at prime count `k`, return the first prime
count whose primed nonterminal is not taken.  The Python loop is unbounded;
`fuel` bounds it here, and `nextUnusedPrimeAux_not_mem` shows that
`taken.length + 1` steps always suffice, so the bounded function agrees with
the Python one. -/
def nextUnusedPrimeAux (nm : String) (taken : List Sym) : Nat → Nat → Nat
  | 0, k => k
  | fuel + 1, k =>
    if Sym.primeNT nm k ∈ taken then nextUnusedPrimeAux nm taken fuel (k + 1)
    else k

/-- `PrimedNonterminal.next_unused(name, nonterminals)`: the primed
nonterminal with the smallest prime count `≥ 1` not in `taken`. -/
def nextUnusedPrime (nm : String) (taken : List Sym) : Sym :=
  Sym.primeNT nm (nextUnusedPrimeAux nm taken (taken.length + 1) 1)

/-- `slr.is_augmented`: the start symbol appears at most once on a left side
and never on a right side. -/
def isAugmented (G : CFG) : Bool :=
  decide ((G.productions.filter fun p => p.left_side == G.start).length ≤ 1) &&
    !(G.productions.any fun p => decide (G.start ∈ p.right_side))

/-- `slr.augmented`: return the grammar unchanged if it is already augmented,
otherwise build a new grammar with a fresh primed start symbol `S0` and the
rule `S0 → S` first.  The Python 4-tuple constructor validates its arguments
and can raise; `none` models that exception. -/
def augmented (G : CFG) : Option CFG :=
  if isAugmented G then some G
  else
    let S0 := nextUnusedPrime G.start.name G.nontermList
    cfgOfTuple (S0 :: G.nontermList) G.termList
      (⟨S0, [G.start]⟩ :: G.productions) S0

/-! ### Derivations

The reference semantics for FIRST sets, CYK and the language of a grammar:
one derivation step rewrites an occurrence of the left side of some
production into its right side. -/

/-- One derivation step: some occurrence of the left side of a production of
`G` is replaced by its right side. -/
inductive Rewrite (G : CFG) : List Sym → List Sym → Prop
  | head (p : Rule) (hp : p ∈ G.productions) (s : List Sym) :
      Rewrite G (p.left_side :: s) (p.right_side ++ s)
  | cons (x : Sym) {u v : List Sym} (h : Rewrite G u v) :
      Rewrite G (x :: u) (x :: v)

/-- `u ⇒* v`: zero or more derivation steps. -/
def Derives (G : CFG) : List Sym → List Sym → Prop :=
  Relation.ReflTransGen (Rewrite G)

/-- `u ⇒⁺ v`: one or more derivation steps. -/
def DerivesPlus (G : CFG) : List Sym → List Sym → Prop :=
  Relation.TransGen (Rewrite G)

/-! ### FIRST sets (`slr.py`, `FirstSetTable`)

The Python table is a dict mapping every nonterminal to a pair
`[set of terminals, nullable flag]`; it is modelled as an association list
over the (deduplicated) nonterminals, so that the `old_table != self.table`
comparison of `_compute` is plain decidable equality. -/

/-- The FIRST table: one entry per nonterminal, holding the accumulated
symbol set and the nullable flag. -/
def FTable : Type := List (Sym × List Sym × Bool)

instance : DecidableEq FTable := by
  unfold FTable; infer_instance

/-- Python `set.union` / `|=` on the list-modelled sets: append the elements
of `b` not already present, preserving first-appearance order (the element
order of a Python set is unspecified; algorithms below never depend on it,
and a list that only ever grows makes the `old_table != self.table`
comparison coincide with set equality). -/
def lunion (a b : List Sym) : List Sym :=
  b.foldl (fun acc x => if x ∈ acc then acc else acc ++ [x]) a

/-- Dictionary lookup `self.table[A]` (the key is always present when the
Python code performs the lookup; a missing key yields the initial value). -/
def ftLookup (t : FTable) (A : Sym) : List Sym × Bool :=
  match t.find? fun e => e.1 == A with
  | some e => e.2
  | none => ([], false)

/-- In-place update of the entry of `A`. -/
def ftUpdate (t : FTable) (A : Sym) (f : List Sym × Bool → List Sym × Bool) :
    FTable :=
  t.map fun e => if e.1 = A then (e.1, f e.2) else e

/-- `self.table = {A : [set(), False] for A in self.grammar.nonterminals}`. -/
def firstInit (G : CFG) : FTable :=
  G.nontermList.dedup.map fun A => (A, ([], false))

/-- The left-to-right walk of `FirstSetTable._compute` over the right side of
one production with left side `A`: a symbol in `grammar.nonterminals`
contributes its FIRST set, and the walk continues past it only if it is
nullable, otherwise the remaining suffix is queued for the next pass; any
other symbol is added directly and stops the walk; walking off the end sets
the nullable flag of `A`. -/
def firstWalk (G : CFG) (A : Sym) : List Sym → FTable → FTable × Option Rule
  | [], t => (ftUpdate t A fun v => (v.1, true), none)
  | X :: rest, t =>
    if X ∈ G.nontermList then
      let t' := ftUpdate t A fun v => (lunion v.1 (ftLookup t X).1, v.2)
      if (ftLookup t X).2 then firstWalk G A rest t'
      else (t', some ⟨A, X :: rest⟩)
    else
      (ftUpdate t A (fun v => (lunion v.1 [X], v.2)), none)

/-- One pass of `_compute` over the current rule list, returning the updated
table and the `next_rules` queue. -/
def firstPass (G : CFG) : List Rule → FTable → FTable × List Rule
  | [], t => (t, [])
  | p :: ps, t =>
    let (t', r?) := firstWalk G p.left_side p.right_side t
    let (t'', rs) := firstPass G ps t'
    (t'', match r? with | some r => r :: rs | none => rs)

/-- The `while changed` loop of `_compute` (with fuel; the Python loop stops
as soon as a pass leaves the table unchanged). -/
def firstIter (G : CFG) : Nat → List Rule → FTable → FTable
  | 0, _, t => t
  | fuel + 1, rules, t =>
    let (t', next) := firstPass G rules t
    if t' = t then t' else firstIter G fuel next t'

/-- `FirstSetTable(G).table`: run `_compute` with enough fuel for the finite
fixpoint (each pass that continues strictly enlarges the table, which lives
in a finite space, so the bound below is never exhausted on the grammars
evaluated here). -/
def firstTable (G : CFG) : FTable :=
  firstIter G
    (G.nontermList.length * (G.nontermList.length + G.termList.length + 1) + 2)
    G.productions (firstInit G)

/-- `FirstSetTable.terminals(A)`. -/
def firstTerminals (G : CFG) (A : Sym) : List Sym :=
  (ftLookup (firstTable G) A).1

/-- `FirstSetTable.nullable(A)`. -/
def firstNullable (G : CFG) (A : Sym) : Bool :=
  (ftLookup (firstTable G) A).2

/-! ### LR(0) items, closures, the automaton, FOLLOW sets and the SLR
parsing table (`slr.py`) -/

/-- `slr.Item`: a production with a dot position. -/
structure SItem where
  production : Rule
  dot_pos : Nat
deriving DecidableEq, Repr

namespace SItem

/-- `Item.after_dot`. -/
def afterDot (it : SItem) : Option Sym :=
  it.production.right_side[it.dot_pos]?

/-- `Item.complete`. -/
def complete (it : SItem) : Bool :=
  it.dot_pos == it.production.right_side.length

/-- `Item.dot_advanced`. -/
def dotAdvanced (it : SItem) : SItem :=
  ⟨it.production, it.dot_pos + 1⟩

end SItem

/-- `Closure.__eq__` compares the *sets* of kernel items. -/
def itemsetEq (a b : List SItem) : Bool :=
  a.toFinset == b.toFinset

/-- The worklist loop of `Closure.closure_nonterminals`. -/
def closureNTLoop (G : CFG) : Nat → Nat → List Sym → List Sym
  | 0, _, res => res
  | fuel + 1, i, res =>
    if i < res.length then
      let A := res.getD i Sym.eps
      let res' := (G.productionsWithLeftSide A).foldl
        (fun acc p =>
          match p.right_side.head? with
          | some X =>
            if X.isNonterminal ∧ X ∉ acc then acc ++ [X] else acc
          | none => acc)
        res
      closureNTLoop G fuel (i + 1) res'
    else res

/-- `Closure.closure_nonterminals`: the nonterminals after a dot in the
kernel, closed under "first symbol of a rule of an already-collected
nonterminal".  The Python worklist loop runs until the index catches up with
the growing result list; the result only collects distinct symbols of the
grammar, so `nontermList.length + kernel.length + 1` steps suffice. -/
def closureNonterminals (G : CFG) (kernel : List SItem) : List Sym :=
  let init := kernel.foldl
    (fun acc it =>
      match it.afterDot with
      | some X => if X.isNonterminal ∧ X ∉ acc then acc ++ [X] else acc
      | none => acc)
    []
  closureNTLoop G (G.nontermList.length + kernel.length + 1) 0 init

/-- `Closure.closure_items`. -/
def closureItems (G : CFG) (kernel : List SItem) : List SItem :=
  (closureNonterminals G kernel).flatMap fun A =>
    (G.productionsWithLeftSide A).map fun p => (⟨p, 0⟩ : SItem)

/-- `Closure.items`: kernel items followed by closure items. -/
def closureAllItems (G : CFG) (kernel : List SItem) : List SItem :=
  kernel ++ closureItems G kernel

/-- `Closure.goto_kernel_items`. -/
def gotoKernelItems (G : CFG) (kernel : List SItem) (X : Sym) : List SItem :=
  (closureAllItems G kernel).filterMap fun it =>
    if it.afterDot == some X then some it.dotAdvanced else none

/-- `Closure.goto_symbols` (distinct symbols after a dot, in first-seen
order). -/
def gotoSymbols (G : CFG) (kernel : List SItem) : List Sym :=
  (closureAllItems G kernel).foldl
    (fun acc it =>
      match it.afterDot with
      | some X => if X ∈ acc then acc else acc ++ [X]
      | none => acc)
    []

/-- `Closure.transitions`: pairs `(X, goto(X))` (goto closures given by
their kernels). -/
def closureTransitions (G : CFG) (kernel : List SItem) :
    List (Sym × List SItem) :=
  (gotoSymbols G kernel).map fun X => (X, gotoKernelItems G kernel X)

/-- One iteration of the transition fold in `slr.Automaton.__init__`: look
the goto target up among the known states (by kernel-set equality),
appending it if new, and record the transition from state `i`. -/
def autoStep (i : Nat) (st : List (List SItem) × List (Nat × Sym × Nat))
    (XJ : Sym × List SItem) :
    List (List SItem) × List (Nat × Sym × Nat) :=
  match st.1.findIdx? fun K => itemsetEq K XJ.2 with
  | some idx => (st.1, st.2 ++ [(i, XJ.1, idx)])
  | none => (st.1 ++ [XJ.2], st.2 ++ [(i, XJ.1, st.1.length)])

/-- The state-construction loop of `slr.Automaton.__init__`: process state
`i`'s transitions with `autoStep`, then move to the next state. -/
def automatonLoop (Gp : CFG) :
    Nat → Nat → List (List SItem) → List (Nat × Sym × Nat) →
      List (List SItem) × List (Nat × Sym × Nat)
  | 0, _, states, tr => (states, tr)
  | fuel + 1, i, states, tr =>
    if i < states.length then
      let st := (closureTransitions Gp (states.getD i [])).foldl
        (autoStep i) (states, tr)
      automatonLoop Gp fuel (i + 1) st.1 st.2
    else (states, tr)

/-- `slr.Automaton(grammar)`: augment the grammar, seed state 0 with the
kernel `{[S' → ·S]}` and run the construction loop.  `none` models the
failures of the Python constructor (augmentation raising, or the
`[p0] = productions_with_left_side(start)` unpacking finding more or fewer
than one start rule) as well as fuel exhaustion. -/
def slrAutomaton (G : CFG) (fuel : Nat) :
    Option (CFG × List (List SItem) × List (Nat × Sym × Nat)) :=
  match augmented G with
  | none => none
  | some Gp =>
    match Gp.productionsWithLeftSide Gp.start with
    | [p0] =>
      let st := automatonLoop Gp fuel 0 [[⟨p0, 0⟩]] []
      some (Gp, st.1, st.2)
    | _ => none

/-- `FirstSetTable.string_first(s)`: walk the string left to right,
accumulating the FIRST sets of nonterminal entries while they are nullable;
a non-key symbol is added itself and stops the walk; the flag reports
whether the walk fell off the end. -/
def stringFirst (ft : FTable) : List Sym → List Sym → List Sym × Bool
  | acc, [] => (acc, true)
  | acc, X :: rest =>
    match ft.find? fun e => e.1 == X with
    | some e =>
      let acc' := lunion acc e.2.1
      if e.2.2 then stringFirst ft acc' rest else (acc', false)
    | none => (lunion acc [X], false)

/-- The FOLLOW table (`FollowSetTable`): one terminal set per nonterminal. -/
def FolTable : Type := List (Sym × List Sym)

instance : DecidableEq FolTable := by
  unfold FolTable; infer_instance

/-- Dictionary lookup `self.table[A]` of the FOLLOW table. -/
def folLookup (t : FolTable) (A : Sym) : List Sym :=
  match t.find? fun e => e.1 == A with
  | some e => e.2
  | none => []

/-- In-place update of the FOLLOW entry of `A`. -/
def folUpdate (t : FolTable) (A : Sym) (f : List Sym → List Sym) : FolTable :=
  t.map fun e => if e.1 = A then (e.1, f e.2) else e

/-- The inner loop of `FollowSetTable._compute` over one production
`A → X₁…Xₘ`: for each nonterminal `B = Xᵢ`, add `string_first(Xᵢ₊₁…Xₘ)` to
`FOLLOW(B)`, and if that suffix is nullable also add the current
`FOLLOW(A)`. -/
def followWalk (ft : FTable) (A : Sym) : List Sym → FolTable → FolTable
  | [], t => t
  | B :: rest, t =>
    if B.isNonterminal then
      let bf := stringFirst ft [] rest
      let t1 := folUpdate t B fun s => lunion s bf.1
      let t2 :=
        if bf.2 then folUpdate t1 B fun s => lunion s (folLookup t1 A) else t1
      followWalk ft A rest t2
    else followWalk ft A rest t

/-- One pass of `FollowSetTable._compute` over all productions. -/
def followPass (ft : FTable) (rules : List Rule) (t : FolTable) : FolTable :=
  rules.foldl (fun t p => followWalk ft p.left_side p.right_side t) t

/-- The `while changed` loop of `FollowSetTable._compute` (fuel-bounded). -/
def followIter (ft : FTable) (rules : List Rule) : Nat → FolTable → FolTable
  | 0, t => t
  | fuel + 1, t =>
    let t' := followPass ft rules t
    if t' = t then t' else followIter ft rules fuel t'

/-- `FollowSetTable(first_sets, automaton)` for the augmented grammar `Gp`:
initialise every nonterminal with the empty set, put the end marker `$` into
the start symbol's set, and iterate to the fixpoint. -/
def followTable (Gp : CFG) (fuel : Nat) : FolTable :=
  let ft := firstTable Gp
  let t0 := Gp.nontermList.dedup.map fun A => (A, ([] : List Sym))
  let t1 := folUpdate t0 Gp.start fun s => lunion s [Sym.marker "$"]
  followIter ft Gp.productions fuel t1

/-- A `ParsingTable` action: shift, reduce (by 0-based production index in
the augmented grammar) or accept. -/
inductive SAction : Type where
  | shift (j : Nat)
  | reduce (p : Nat)
  | accept
deriving DecidableEq, Repr

/-- One ACTION row: the dict terminal → list of actions. -/
abbrev ARow : Type := List (Sym × List SAction)

/-- `ParsingTable._add_action` on one row: `if X not in row: row[X] = [];
row[X].append(action)` — a plain append with no duplicate suppression. -/
def rowAdd (row : ARow) (X : Sym) (a : SAction) : ARow :=
  if row.any fun e => e.1 == X then
    row.map fun e => if e.1 = X then (e.1, e.2 ++ [a]) else e
  else row ++ [(X, [a])]

/-- `ParsingTable._add_action`. -/
def addAction (rows : List ARow) (i : Nat) (X : Sym) (a : SAction) :
    List ARow :=
  rows.set i (rowAdd (rows.getD i []) X a)

/-- The dict lookup `row.get(a, [])` on a single ACTION row. -/
def rowCell (row : ARow) (a : Sym) : List SAction :=
  match row.find? fun e => e.1 == a with
  | some e => e.2
  | none => []

/-- `ParsingTable.action(i, a)`: `self._action[i].get(a, [])`. -/
def actionCell (rows : List ARow) (i : Nat) (a : Sym) : List SAction :=
  rowCell (rows.getD i []) a

/-- The first loop of `ParsingTable._init_grammar`: a shift action for every
transition on a terminal (transitions on nonterminals feed the GOTO table,
which is not modelled here). -/
def shiftFold (trans : List (Nat × Sym × Nat)) (rows : List ARow) :
    List ARow :=
  trans.foldl
    (fun rows t =>
      if t.2.1.isTerminal then addAction rows t.1 t.2.1 (.shift t.2.2)
      else rows)
    rows

/-- The body of the second loop of `ParsingTable._init_grammar` for one
state: for every complete item, an accept action (for the start symbol) or a
reduce action for every terminal in the FOLLOW set of the left side. -/
def reduceStep (Gp : CFG) (fol : FolTable) (rows : List ARow) (i : Nat)
    (Ii : List SItem) : List ARow :=
  (closureAllItems Gp Ii).foldl
    (fun rows it =>
      if it.complete then
        if it.production.left_side = Gp.start then
          addAction rows i (Sym.marker "$") .accept
        else
          (folLookup fol it.production.left_side).foldl
            (fun rows a =>
              addAction rows i a
                (.reduce (Gp.productions.indexOf it.production)))
            rows
      else rows)
    rows

/-- The second loop of `ParsingTable._init_grammar` over all states. -/
def reduceFold (Gp : CFG) (fol : FolTable) (states : List (List SItem))
    (rows : List ARow) : List ARow :=
  states.enum.foldl (fun rows x => reduceStep Gp fol rows x.1 x.2) rows

/-- The ACTION half of `ParsingTable(grammar)`: empty rows, then the shift
actions from the automaton's transitions, then the reduce/accept actions
from the complete items. -/
def parsingTableAction (G : CFG) (fuel : Nat) : Option (List ARow) :=
  (slrAutomaton G fuel).map fun M =>
    let fol := followTable M.1 fuel
    let rows0 := M.2.1.map fun _ => ([] : ARow)
    reduceFold M.1 fol M.2.1 (shiftFold M.2.2 rows0)

/-! ### Chomsky-normal-form predicate (`cnf.py`: `is_cnf_rule`, `is_cnf`) -/

/-- `cnf.is_cnf_rule`: a single terminal, or two nonterminals both distinct
from the start symbol, or the start-only ε rule. -/
def isCnfRule (r : Rule) (s : Sym) : Bool :=
  (match r.right_side with
   | [x] => x.isTerminal
   | [x, y] => x.isNonterminal && x != s && y.isNonterminal && y != s
   | _ => false) ||
    (r.left_side == s && r.right_side.isEmpty)

/-- `cnf.is_cnf`. -/
def isCnf (G : CFG) : Bool :=
  G.productions.all fun r => isCnfRule r G.start

/-! ### Python exceptions -/

/-- The exception kinds raised by the embedded algorithms. -/
inductive PyErr : Type where
  | typeError (msg : String)
  | valueError (msg : String)
  | parseError (msg : String)
deriving DecidableEq, Repr

/-! ### CYK (`aho_ullman.py`: `_check_args`, `_cyk_check_args`,
`cocke_younger_kasami_algorithm`, `left_parse_from_parse_table`) -/

/-- `aho_ullman._check_args`: a `TypeError` for the first input symbol that
is not a `Terminal` instance, then a `ValueError` for the first input symbol
not in the grammar's terminal alphabet. -/
def checkArgs (G : CFG) (w : List Sym) : Except PyErr Unit :=
  match w.find? fun a => !a.isTerminal with
  | some _ => .error (.typeError "input symbol is not an instance of Terminal")
  | none =>
    match w.find? fun a => !(G.termList.contains a) with
    | some _ =>
      .error (.valueError "input terminal is not in the grammar's alphabet")
    | none => .ok ()

/-- `aho_ullman._cyk_check_args`: `_check_args`, then the unconditional
ε-production check, then (only if `check` is set) the CNF check. -/
def cykCheckArgs (G : CFG) (w : List Sym) (check : Bool) : Except PyErr Unit := do
  checkArgs G w
  if G.hasEmptyRules then
    .error (.valueError "grammar has empty rules")
  else if check && !isCnf G then
    .error (.valueError "grammar is not in Chomsky normal form")
  else
    .ok ()

/-- The 1-based input accessor `a[i]` (`Seq(w)`); out-of-range positions are
never accessed by the algorithms below on checked inputs. -/
def wAt (w : List Sym) (i : Nat) : Sym :=
  w.getD (i - 1) Sym.eps

/-- The 1-based production number `P.index(p)` of a `Seq`-wrapped production
list. -/
def idx1 (G : CFG) (p : Rule) : Nat :=
  G.productions.indexOf p + 1

/-- Step (1) of the CYK algorithm: `ti1 = {A | A → ai ∈ P}`.  The Python
test is `pp.right_side[0] == a[i]`; the ε-check performed beforehand
guarantees every right side is nonempty, so `head?` agrees with it. -/
def cykBase (G : CFG) (w : List Sym) (i : Nat) : Finset Sym :=
  ((G.productions.filter fun p => p.right_side.head? == some (wAt w i)).map
    Rule.left_side).toFinset

/-- The inner union of `line(j)`:
`tij ∪= {A | A → BC ∈ P, B ∈ tik, C ∈ ti+k,j−k}` accumulated over
`k = 1, …, j` (positions with `j − k < 1` are skipped). -/
def cykFormula (G : CFG) (T : Nat → Nat → Finset Sym) (i j : Nat) :
    Finset Sym :=
  (Finset.range j).biUnion fun k' =>
    let k := k' + 1
    if 1 ≤ j - k then
      ((G.productions.filter fun p =>
        match p.right_side with
        | [B, C] => decide (B ∈ T i k) && decide (C ∈ T (i + k) (j - k))
        | _ => false).map Rule.left_side).toFinset
    else ∅

/-- The table after the column-filling loops of
`cocke_younger_kasami_algorithm` have processed columns `1, …, J`:
the first loop fills `t[i][1]` for `i = 1, …, n` and `line(j)` fills
`t[i][j]` for `i = 1, …, n − j + 1` from already-final cells of columns
`< j`, so each column has its final value as soon as it is written.  Cells
outside the table remain `∅`. -/
def cykUpTo (G : CFG) (w : List Sym) (n : Nat) : Nat → Nat → Nat → Finset Sym
  | 0 => fun _ _ => ∅
  | J + 1 => fun i j =>
    if j = J + 1 ∧ 1 ≤ i ∧ i + j ≤ n + 1 then
      if j = 1 then cykBase G w i
      else cykFormula G (cykUpTo G w n J) i j
    else cykUpTo G w n J i j

/-- The finished CYK parse table `T` (as the function `(i, j) ↦ t[i][j]`). -/
def cykTable (G : CFG) (w : List Sym) : Nat → Nat → Finset Sym :=
  cykUpTo G w w.length w.length

/-- `cocke_younger_kasami_algorithm(G, w, check=check)`: run the checks and
produce the table. -/
def cockeYoungerKasami (G : CFG) (w : List Sym) (check : Bool) :
    Except PyErr (Nat → Nat → Finset Sym) := do
  cykCheckArgs G w check
  pure (cykTable G w)

/-- The recursive routine `gen(i, j, A)` of `left_parse_from_parse_table`.
The Python recursion consumes strictly smaller spans `j`, which the `fuel`
argument (instantiated with `j` at the top, and decreased once per call)
makes structural.  Python iterates over the sets `t[i][k]` in unspecified
(hash) order to find a pair `(B, C)` with `A → BC ∈ P`; here the candidates
are found by scanning `P` in order, a deterministic refinement of that
unspecified choice (no claim below depends on which candidate is taken). -/
def cykGen (G : CFG) (w : List Sym) (T : Nat → Nat → Finset Sym) :
    Nat → Nat → Nat → Sym → Except PyErr (List Nat)
  | 0, _, _, _ => .ok []
  | fuel + 1, i, j, A =>
    if j = 1 then
      let p : Rule := ⟨A, [wAt w i]⟩
      if p ∈ G.productions then .ok [idx1 G p]
      else .error (.parseError "error")
    else if 1 < j then
      let cands := (List.range (j - 1)).flatMap fun k' =>
        let k := k' + 1
        G.productions.filterMap fun p =>
          match p.right_side with
          | [B, C] =>
            if p.left_side = A ∧ B ∈ T i k ∧ C ∈ T (i + k) (j - k) then
              some (k, B, C)
            else none
          | _ => none
      match cands.head? with
      | none => .error (.parseError "error")
      | some (k, B, C) => do
        let l ← cykGen G w T fuel i k B
        let r ← cykGen G w T fuel (i + k) (j - k) C
        pure (idx1 G ⟨A, [B, C]⟩ :: (l ++ r))
    else .ok []

/-- `left_parse_from_parse_table(G, w, T, check=check)`. -/
def leftParseFromParseTable (G : CFG) (w : List Sym)
    (T : Nat → Nat → Finset Sym) (check : Bool) :
    Except PyErr (List Nat) := do
  cykCheckArgs G w check
  cykGen G w T w.length 1 w.length G.start

/-! ### Top-down backtrack parsing and left-parse trees (`aho_ullman.py`:
`topdown_backtrack_parse`, `LeftParse`; `util/tree.py`: `iter_leaves`) -/

/-- The three parser states `q` (normal), `b` (backtracking), `t`
(terminated). -/
inductive QBT : Type where
  | q
  | b
  | t
deriving DecidableEq, Repr

/-- An element of the first pushdown list `L1` (`alpha`): either a shifted
input terminal, or an index pair `(A, j)` recording that the `j`-th alternate
of `A` was expanded. -/
inductive Entry : Type where
  | term (a : Sym)
  | alt (A : Sym) (j : Nat)
deriving DecidableEq, Repr

/-- A configuration `(s, i, alpha, beta)` of the top-down backtrack parser. -/
structure TDConfig where
  st : QBT
  i : Nat
  alpha : List Entry
  beta : List Sym
deriving DecidableEq, Repr

/-- `I[A]`, the ordered list of alternates (right sides) for `A`:
`Seq([pp.right_side for pp in P if pp.left_side == A])`. -/
def alts (G : CFG) (A : Sym) : List (List Sym) :=
  (G.productions.filter fun p => p.left_side == A).map Rule.right_side

/-- The `goes_to` relation of `topdown_backtrack_parse`, clause for clause.
`none` covers both "no configuration" (the cascade falls through, or the
explicit parse-failed clause) and the positions where the Python code would
raise an `IndexError` (expanding a nonterminal with no alternates, or an
invalid alternate index on `L1`); in either case the Python function returns
no parse.  Note that `isinstance(x, Terminal)` is true for `Marker`
instances, so a `$` at the head of `beta` in state `q` takes the
match-test branch and fails the match into state `b`. -/
def tdStep (G : CFG) (w : List Sym) : TDConfig → Option TDConfig
  | ⟨QBT.q, i, alpha, beta⟩ =>
    if i = w.length + 1 ∧ beta = [Sym.marker "$"] then
      some ⟨QBT.t, i, alpha, []⟩
    else
      match beta with
      | [] => none
      | X :: rest =>
        if X.isNonterminal then
          match alts G X with
          | [] => none
          | g1 :: _ => some ⟨QBT.q, i, alpha ++ [Entry.alt X 1], g1 ++ rest⟩
        else if X.isTerminal then
          if i ≤ w.length ∧ X = wAt w i then
            some ⟨QBT.q, i + 1, alpha ++ [Entry.term X], rest⟩
          else some ⟨QBT.b, i, alpha, X :: rest⟩
        else none
  | ⟨QBT.b, i, alpha, beta⟩ =>
    match alpha.getLast? with
    | some (Entry.term a) =>
      if a.isTerminal then
        some ⟨QBT.b, i - 1, alpha.dropLast, a :: beta⟩
      else none
    | some (Entry.alt A j) =>
      match (alts G A).get? (j - 1) with
      | none => none
      | some gj =>
        if beta.take gj.length = gj then
          match (alts G A).get? j with
          | some gj1 =>
            some ⟨QBT.q, i, alpha.dropLast ++ [Entry.alt A (j + 1)],
              gj1 ++ beta.drop gj.length⟩
          | none =>
            if i = 1 ∧ A = G.start ∧ j ≤ (alts G A).length then none
            else some ⟨QBT.b, i, alpha.dropLast, A :: beta.drop gj.length⟩
        else none
    | none => none
  | ⟨QBT.t, _, _, _⟩ => none

/-- The `while True` loop: compute successive configurations until `goes_to`
yields none; `fuel` bounds the number of iterations (a run that does not halt
within the fuel yields `none`, matching the fact that a diverging Python loop
never returns). -/
def tdRun (G : CFG) (w : List Sym) : Nat → TDConfig → Option TDConfig
  | 0, _ => none
  | fuel + 1, c =>
    match tdStep G w c with
    | none => some c
    | some c' => tdRun G w fuel c'

/-- The production number `P.index(ProductionRule(A, I[A][j]))` (1-based)
emitted by the homomorphism `h` for the entry `(A, j)`. -/
def tdIndex (G : CFG) (A : Sym) (j : Nat) : Nat :=
  idx1 G ⟨A, (alts G A).getD (j - 1) []⟩

/-- The homomorphism `h`: erase the shifted terminals, map each index pair to
its production number. -/
def hMap (G : CFG) (alpha : List Entry) : List Nat :=
  alpha.filterMap fun e =>
    match e with
    | Entry.term _ => none
    | Entry.alt A j => some (tdIndex G A j)

/-- `topdown_backtrack_parse(G, w)`: validate the input symbols, run the
machine from `(q, 1, e, S$)`, and emit `h(alpha)` from a final configuration
`(t, n + 1, alpha, e)`; every other outcome (including the grammar's
left-recursion check, which only turns runs into errors and never produces a
parse) is `none`. -/
def topdownParse (G : CFG) (w : List Sym) (fuel : Nat) : Option (List Nat) :=
  match checkArgs G w with
  | .error _ => none
  | .ok _ =>
    match tdRun G w fuel ⟨QBT.q, 1, [], [G.start, Sym.marker "$"]⟩ with
    | none => none
    | some c =>
      if c.st = QBT.t ∧ c.i = w.length + 1 ∧ c.beta = [] then
        some (hMap G c.alpha)
      else none

/-- Replay of a single `L1` entry on an abstract configuration
`(consumed, sentential form)`: a shifted terminal moves the matching head of
the form to the consumed string, an index pair expands the head
nonterminal with the recorded alternate. -/
def simStep (G : CFG) (st : List Sym × List Sym) (e : Entry) :
    Option (List Sym × List Sym) :=
  match e, st.2 with
  | Entry.term a, b :: β => if b = a then some (st.1 ++ [a], β) else none
  | Entry.alt A j, B :: β =>
    if B = A then
      match (alts G A).get? (j - 1) with
      | some gj => some (st.1, gj ++ β)
      | none => none
    else none
  | _, [] => none

/-- Replay a whole `L1` stack left to right. -/
def simulate (G : CFG) : List Entry → List Sym × List Sym →
    Option (List Sym × List Sym)
  | [], st => some st
  | e :: es, st =>
    match simStep G st e with
    | some st' => simulate G es st'
    | none => none

/-- Well-formedness of an `L1` entry as maintained by the machine: shifted
symbols are terminals other than the endmarker, index pairs carry
nonterminals. -/
def EntryOK : Entry → Prop
  | Entry.term a => a.isTerminal = true ∧ a ≠ Sym.marker "$"
  | Entry.alt A _ => A.isNonterminal = true

/-- The machine invariant: in states `q` and `b` the `L1` stack replays from
`(e, S$)` to `(a₁…a_{i−1}, beta)`; in state `t` it replays to `(w, $)` and
`beta` is empty. -/
def TDInv (G : CFG) (w : List Sym) (c : TDConfig) : Prop :=
  (∀ e ∈ c.alpha, EntryOK e) ∧
    match c.st with
    | QBT.t =>
        simulate G c.alpha ([], [G.start, Sym.marker "$"]) =
          some (w, [Sym.marker "$"]) ∧ c.beta = []
    | _ =>
        simulate G c.alpha ([], [G.start, Sym.marker "$"]) =
            some (w.take (c.i - 1), c.beta) ∧
          1 ≤ c.i ∧ c.i ≤ w.length + 1

mutual
/-- `cfg.ParseTree` (a `Tree(Symbol)`): a value and a tuple of subtrees. -/
inductive PTree : Type where
  | node (value : Sym) (children : PForest)
/-- A tuple of subtrees. -/
inductive PForest : Type where
  | nil : PForest
  | cons (t : PTree) (ts : PForest) : PForest
end

mutual
/-- `iter_leaves`: a childless node yields its value (even a childless
nonterminal node, as produced for an ε-rule); otherwise recurse. -/
def leavesT : PTree → List Sym
  | PTree.node v PForest.nil => [v]
  | PTree.node _ (PForest.cons c cs) => leavesF (PForest.cons c cs)
/-- `iter_leaves` over a tuple of subtrees, left to right. -/
def leavesF : PForest → List Sym
  | PForest.nil => []
  | PForest.cons t ts => leavesT t ++ leavesF ts
end

/-- Concatenation of subtree tuples. -/
def appendF : PForest → PForest → PForest
  | PForest.nil, g => g
  | PForest.cons t ts, g => PForest.cons t (appendF ts g)

/-- The recursion of `LeftParse._tree`, processing an expected list of
symbols against the remaining parse numbers: a terminal (or other
non-`Nonterminal`) symbol becomes a childless leaf; a nonterminal consumes
the next parse number `k`, looks up production `k` (1-based; `0` is the
`Seq` index error), requires its left side to equal the expected symbol
(`assert tree.value == c`), and builds its children from its right side.
The Python recursion consumes at least one parse number per nonterminal and
needs no fuel; `fuel` (decreased once per call) makes the recursion
structural, and any sufficiently large value gives the Python result. -/
def build (G : CFG) : Nat → List Sym → List Nat → Option (PForest × List Nat)
  | 0, _, _ => none
  | _ + 1, [], parse => some (PForest.nil, parse)
  | fuel + 1, c :: cs, parse =>
    if c.isNonterminal then
      match parse with
      | [] => none
      | 0 :: _ => none
      | (k + 1) :: rest =>
        match G.productions.get? k with
        | none => none
        | some rule =>
          if rule.left_side = c then
            match build G fuel rule.right_side rest with
            | some (children, rest1) =>
              match build G fuel cs rest1 with
              | some (ts, rest2) =>
                some (PForest.cons (PTree.node rule.left_side children) ts,
                  rest2)
              | none => none
            | none => none
          else none
    else
      match build G fuel cs parse with
      | some (ts, rest1) =>
        some (PForest.cons (PTree.node c PForest.nil) ts, rest1)
      | none => none

/-- `LeftParse(G, parse).tree()`: `_tree(0)` builds the tree for the start
symbol and the asserts require its value to be the start symbol and the
parse to be fully consumed; any assertion or index failure is `none`. -/
def leftParseTree (G : CFG) (parse : List Nat) (fuel : Nat) : Option PTree :=
  match build G fuel [G.start] parse with
  | some (PForest.cons t PForest.nil, []) => some t
  | _ => none

/-- The grammar `S → ε`. -/
def gEps : CFG :=
  ⟨[⟨Sym.nt "S", []⟩], Sym.nt "S", [], []⟩

/-! ### Conversion to Chomsky normal form (`cnf.py`) -/

/-- `Symbol.__str__` for each class: nonterminals are bracketed unless the
name is one uppercase character; terminals (and markers, epsilon) are quoted
unless the name is one non-uppercase character; subscripted nonterminals
append the subscript, primed nonterminals append the prime marks. -/
def symStr : Sym → String
  | .nt s => if s.length == 1 && s.front.isUpper then s else "<" ++ s ++ ">"
  | .subNT s k =>
    (if s.length == 1 && s.front.isUpper then s else "<" ++ s ++ ">") ++
      toString k
  | .primeNT s k =>
    (if s.length == 1 && s.front.isUpper then s else "<" ++ s ++ ">") ++
      String.mk (List.replicate k '\'')
  | .tm s => if s.length == 1 && !s.front.isUpper then s else "\"" ++ s ++ "\""
  | .marker s =>
    if s.length == 1 && !s.front.isUpper then s else "\"" ++ s ++ "\""
  | .eps => "\"\""

/-- `SubscriptedNonterminal.next_unused` (same `_next_unused` search as the
primed variant, starting at subscript 1). -/
def nextUnusedSubAux (nm : String) (taken : List Sym) : Nat → Nat → Nat
  | 0, k => k
  | fuel + 1, k =>
    if Sym.subNT nm k ∈ taken then nextUnusedSubAux nm taken fuel (k + 1)
    else k

/-- `SubscriptedNonterminal.next_unused(name, taken)`. -/
def nextUnusedSub (nm : String) (taken : List Sym) : Sym :=
  Sym.subNT nm (nextUnusedSubAux nm taken (taken.length + 1) 1)

/-- `itertools.combinations(s, k)` on a list, in the order `itertools`
produces them (all tuples containing the first element first). -/
def combinations : List α → Nat → List (List α)
  | _, 0 => [[]]
  | [], _ + 1 => []
  | x :: xs, k + 1 =>
    (combinations xs k).map (x :: ·) ++ combinations xs (k + 1)

/-- `moreitertools.powerset`: subsets by increasing size, each size in
`itertools.combinations` order. -/
def powersetPy (l : List α) : List (List α) :=
  (List.range (l.length + 1)).flatMap (combinations l)

/-- One substitution of `cnf.substitutions`: positions of the sentence in
the chosen subset are replaced by the production's right side, the others
kept. -/
def applySubset (sentence rhs : List Sym) (subset : List Nat) : List Sym :=
  sentence.enum.flatMap fun e => if e.1 ∈ subset then rhs else [e.2]

/-- `cnf.substitutions(sentence, production)`: all distinct ways of
replacing a subset of the occurrences of the production's left side, in
powerset order, deduplicated as they are produced. -/
def substitutions (sentence : List Sym) (p : Rule) : List (List Sym) :=
  let indices := sentence.enum.filterMap fun e =>
    if e.2 = p.left_side then some e.1 else none
  (powersetPy indices).foldl
    (fun acc subset =>
      let sub := applySubset sentence p.right_side subset
      if sub ∈ acc then acc else acc ++ [sub])
    []

/-- The ε-removal loop of `ChomskyNormalForm` (fuel bounds the `while True`):
repeatedly take the first ε-rule whose left side is not `S0`, record and
delete it, and replace the tail `productions[1:]` by all substitution
variants of its rules, dropping any rule that was removed before. -/
def removeEpsLoop (S0 : Sym) : Nat → List Rule → List Rule → List Rule
  | 0, _, ps => ps
  | fuel + 1, removed, ps =>
    match ps.findIdx? fun p => p.right_side.isEmpty && p.left_side != S0 with
    | none => ps
    | some i =>
      let pe := ps.getD i ⟨S0, []⟩
      let removed' := removed ++ [pe]
      let ps' := ps.eraseIdx i
      let newRules := (ps'.drop 1).flatMap fun rule =>
        (substitutions rule.right_side pe).map fun sentence =>
          Rule.mk rule.left_side sentence
      let ps'' := ps'.take 1 ++ newRules.filter fun r => !(removed'.contains r)
      removeEpsLoop S0 fuel removed' ps''

/-- The unit-rule-removal loop of `ChomskyNormalForm`: repeatedly take the
first rule `A → B` with `B` a nonterminal, record it, and splice in `A → β`
for every current rule `B → β` not already present and not removed before. -/
def removeUnitLoop : Nat → List Rule → List Rule → List Rule
  | 0, _, ps => ps
  | fuel + 1, removed, ps =>
    match ps.findIdx? fun p =>
        match p.right_side with
        | [x] => x.isNonterminal
        | _ => false with
    | none => ps
    | some i =>
      let pu := ps.getD i ⟨Sym.eps, []⟩
      let removed' := removed ++ [pu]
      let B := pu.right_side.headD Sym.eps
      let newRules := (ps.filter fun p => p.left_side == B).map fun p =>
        Rule.mk pu.left_side p.right_side
      let ps' := ps.take i ++
        (newRules.filter fun r => !(ps.contains r) && !(removed'.contains r)) ++
        ps.drop (i + 1)
      removeUnitLoop fuel removed' ps'

/-- `cnf.chain(p, used_variables)`: split a long right side into a leading
symbol and a fresh subscripted nonterminal named after the string forms of
the tail, recursively. -/
def chainAux : Sym → List Sym → List Sym → List Rule
  | lhs, [], _ => [⟨lhs, []⟩]
  | lhs, [x], _ => [⟨lhs, [x]⟩]
  | lhs, [x, y], _ => [⟨lhs, [x, y]⟩]
  | lhs, first :: rest, used =>
    let secondName := String.join (rest.map symStr)
    let second := nextUnusedSub secondName used
    ⟨lhs, [first, second]⟩ :: chainAux second rest (used ++ [second])

/-- `cnf.chain(p, used_variables)` applied to a whole rule. -/
def chainRule (p : Rule) (used : List Sym) : List Rule :=
  chainAux p.left_side p.right_side used

/-- `cnf.get_variables(productions)` (as a list with membership semantics):
all left sides and all nonterminal right-side symbols. -/
def getVariables (ps : List Rule) : List Sym :=
  ps.flatMap fun p => p.left_side :: p.right_side.filter Sym.isNonterminal

/-- The chaining loop of `ChomskyNormalForm`: splice `chain(productions[i])`
in place of rule `i` and jump `i` by the number of spliced rules.  Besides
the final rule list it returns the final value of the loop-local
`new_rules`, because the Python terminal-proxying loop below reuses that
leftover variable as its index increment. -/
def chainLoop : Nat → Nat → List Rule → List Rule → List Rule × List Rule
  | 0, _, ps, last => (ps, last)
  | fuel + 1, i, ps, last =>
    if i < ps.length then
      let newRules := chainRule (ps.getD i ⟨Sym.eps, []⟩) (getVariables ps)
      let ps' := ps.take i ++ newRules ++ ps.drop (i + 1)
      chainLoop fuel (i + newRules.length) ps' newRules
    else (ps, last)

/-- `str.upper()` on identifiers. -/
def strUpper (s : String) : String := String.mk (s.data.map Char.toUpper)

/-- The proxy rule `proxy_rules[t] = X_t → t` with `X_t` the uppercase name
subscripted to avoid the given variable set. -/
def proxyRule (varList : List Sym) (t : Sym) : Rule :=
  ⟨nextUnusedSub (strUpper t.name) varList, [t]⟩

/-- `cnf.replace_terminals(p, proxy_rules)`: skip short rules and the proxy
rules themselves; otherwise replace every terminal of the right side by its
proxy variable and report the replaced terminals. -/
def replaceTerminals (varList origTerms : List Sym) (p : Rule) :
    Rule × List Sym :=
  if p.right_side.length < 2 ∨ ∃ t ∈ origTerms, proxyRule varList t = p then
    (p, [])
  else
    (⟨p.left_side,
        p.right_side.map fun s =>
          if s.isTerminal then (proxyRule varList s).left_side else s⟩,
      p.right_side.filter Sym.isTerminal)

/-- The terminal-proxying loop of `ChomskyNormalForm`.  `inc` is the length
of the *chaining* loop's final `new_rules` list: the Python loop advances
with `i += len(new_rules)` although `new_rules` is never reassigned inside
this loop, so the increment is this constant leftover value. -/
def proxyLoop (varList origTerms : List Sym) (inc : Nat) :
    Nat → Nat → List Rule → List Sym → List Rule
  | 0, _, ps, _ => ps
  | fuel + 1, i, ps, added =>
    if i < ps.length then
      let p := ps.getD i ⟨Sym.eps, []⟩
      let (newRule, replaced) := replaceTerminals varList origTerms p
      let ps' := ps.set i newRule
      let st := replaced.foldl
        (fun (st : List Rule × List Sym) t =>
          if t ∈ st.2 then st
          else (st.1 ++ [proxyRule varList t], st.2 ++ [t]))
        (ps', added)
      proxyLoop varList origTerms inc fuel (i + inc) st.1 st.2
    else ps

/-- `cnf.ChomskyNormalForm(G)`: prepend `S0 → S` with `S0` the subscript-0
copy of the start name, remove ε-rules, remove unit rules, chain long right
sides, proxy terminals, and build the result grammar from the production
list (`none` models the final constructor raising on an empty list, or fuel
exhaustion in one of the unbounded loops). -/
def chomskyNormalForm (G : CFG) (fuel : Nat) : Option CFG :=
  let S0 := Sym.subNT G.start.name 0
  let ps1 := ⟨S0, [G.start]⟩ :: G.productions
  let ps2 := removeEpsLoop S0 fuel [] ps1
  let ps3 := removeUnitLoop fuel [] ps2
  let (ps4, lastNew) := chainLoop fuel 0 ps3 []
  let vars := getVariables ps4
  let ps5 := proxyLoop vars G.termList lastNew.length fuel 0 ps4 []
  cfgOfProductions ps5

/-- The subword `w_i … w_{i+j-1}` (1-based) of an input string. -/
def sliceW (w : List Sym) (i j : Nat) : List Sym :=
  (w.drop (i - 1)).take j

/-! ### Concrete example grammars used as test inputs -/

/-- The grammar `S → abc` (start `S`), as built from its short string form. -/
def gAbc : CFG :=
  ⟨[⟨Sym.nt "S", [Sym.tm "a", Sym.tm "b", Sym.tm "c"]⟩], Sym.nt "S", [], []⟩

/-- The value of `ChomskyNormalForm` on `gAbc`: the chaining loop ends with
`new_rules` of length 2, so the terminal-proxying loop steps `i` by 2 and
never visits the rules `⟨bc⟩₁ → bc` and `⟨bc⟩₂ → bc`, whose terminal pairs
survive. -/
def gAbcCnf : CFG :=
  ⟨[⟨Sym.subNT "S" 0, [Sym.subNT "A" 1, Sym.subNT "bc" 1]⟩,
    ⟨Sym.subNT "bc" 1, [Sym.tm "b", Sym.tm "c"]⟩,
    ⟨Sym.nt "S", [Sym.subNT "A" 1, Sym.subNT "bc" 2]⟩,
    ⟨Sym.subNT "bc" 2, [Sym.tm "b", Sym.tm "c"]⟩,
    ⟨Sym.subNT "A" 1, [Sym.tm "a"]⟩],
    Sym.subNT "S" 0, [], []⟩

/-- The grammar `S → a | ε` (start `S`), as built from its short string
form; its language is `{a, ε}`. -/
def gSaEps : CFG :=
  ⟨[⟨Sym.nt "S", [Sym.tm "a"]⟩, ⟨Sym.nt "S", []⟩], Sym.nt "S", [], []⟩

/-- The value of `ChomskyNormalForm` on `gSaEps`: the ε-removal loop never
substitutes into `productions[0] = S₀ → S`, so no rule `S₀ → ε` is ever
created and the empty string is lost. -/
def gSaEpsCnf : CFG :=
  ⟨[⟨Sym.subNT "S" 0, [Sym.tm "a"]⟩, ⟨Sym.nt "S", [Sym.tm "a"]⟩],
    Sym.subNT "S" 0, [], []⟩

/-- The grammar `S → a | a` with a duplicated production rule. -/
def gDup : CFG :=
  ⟨[⟨Sym.nt "S", [Sym.tm "a"]⟩, ⟨Sym.nt "S", [Sym.tm "a"]⟩],
    Sym.nt "S", [], []⟩

/-- The augmentation of `gDup`. -/
def gDupAug : CFG :=
  ⟨[⟨Sym.primeNT "S" 1, [Sym.nt "S"]⟩,
    ⟨Sym.nt "S", [Sym.tm "a"]⟩,
    ⟨Sym.nt "S", [Sym.tm "a"]⟩],
    Sym.primeNT "S" 1, [Sym.primeNT "S" 1], []⟩

/-- The states of the LR(0) automaton of `gDup` (kernels). -/
def gDupStates : List (List SItem) :=
  [[⟨⟨Sym.primeNT "S" 1, [Sym.nt "S"]⟩, 0⟩],
   [⟨⟨Sym.primeNT "S" 1, [Sym.nt "S"]⟩, 1⟩],
   [⟨⟨Sym.nt "S", [Sym.tm "a"]⟩, 1⟩, ⟨⟨Sym.nt "S", [Sym.tm "a"]⟩, 1⟩]]

/-- The transitions of the LR(0) automaton of `gDup`. -/
def gDupTrans : List (Nat × Sym × Nat) :=
  [(0, Sym.nt "S", 1), (0, Sym.tm "a", 2)]

/-- The ACTION table computed for `gDup`: note the duplicated
`reduce 1` entry in state 2 under `$`. -/
def gDupRows : List ARow :=
  [[(Sym.tm "a", [.shift 2])],
   [(Sym.marker "$", [.accept])],
   [(Sym.marker "$", [.reduce 1, .reduce 1])]]

/-- The grammar `S → A | B; A → a; B → a`, which has a reduce/reduce
conflict on the input `a`. -/
def gRR : CFG :=
  ⟨[⟨Sym.nt "S", [Sym.nt "A"]⟩, ⟨Sym.nt "S", [Sym.nt "B"]⟩,
    ⟨Sym.nt "A", [Sym.tm "a"]⟩, ⟨Sym.nt "B", [Sym.tm "a"]⟩],
    Sym.nt "S", [], []⟩

/-- The grammar `A → B; B → ε | C; C → c` (start `A`), built as
`ContextFreeGrammar` builds it from its short string form. -/
def gFirstBug : CFG :=
  ⟨[⟨Sym.nt "A", [Sym.nt "B"]⟩,
    ⟨Sym.nt "B", []⟩,
    ⟨Sym.nt "B", [Sym.nt "C"]⟩,
    ⟨Sym.nt "C", [Sym.tm "c"]⟩], Sym.nt "A", [], []⟩

/-- A grammar (constructible through the validated 4-tuple constructor,
see `gNoStartRule_constructible`) whose start symbol `S` has no production:
`N = {S, A}`, `Σ = {a}`, `P = [A → a]`. -/
def gNoStartRule : CFG :=
  ⟨[⟨Sym.nt "A", [Sym.tm "a"]⟩], Sym.nt "S", [Sym.nt "S", Sym.nt "A"], []⟩

/-- The grammar `S → aS` (start occurs on a right side, so `augmented` must
introduce a new start symbol). -/
def gAug1 : CFG :=
  ⟨[⟨Sym.nt "S", [Sym.tm "a", Sym.nt "S"]⟩], Sym.nt "S", [], []⟩

/-- The augmentation of `gAug1`: start `S'`, rules `S' → S; S → aS`. -/
def gAug1' : CFG :=
  ⟨[⟨Sym.primeNT "S" 1, [Sym.nt "S"]⟩, ⟨Sym.nt "S", [Sym.tm "a", Sym.nt "S"]⟩],
    Sym.primeNT "S" 1, [Sym.primeNT "S" 1], []⟩

/-- A one-rule grammar `S → a` that is in Chomsky normal form, used to
instantiate the CYK correctness theorem on the input `w = a`. -/
def gCyk : CFG :=
  ⟨[⟨Sym.nt "S", [Sym.tm "a"]⟩], Sym.nt "S", [], []⟩

/-! ## Theorems -/

theorem gNoStartRule_constructible :
    cfgOfTuple [Sym.nt "S", Sym.nt "A"] [Sym.tm "a"]
      [⟨Sym.nt "A", [Sym.tm "a"]⟩] (Sym.nt "S") = some gNoStartRule := by
  decide

theorem nextUnusedPrimeAux_spec (nm : String) (taken : List Sym) :
    ∀ fuel k, (∃ j, k ≤ j ∧ j < k + fuel ∧ Sym.primeNT nm j ∉ taken) →
      Sym.primeNT nm (nextUnusedPrimeAux nm taken fuel k) ∉ taken := by
  intro fuel
  induction fuel with
  | zero =>
    intro k ⟨j, hkj, hjk, _⟩
    omega
  | succ fuel ih =>
    intro k ⟨j, hkj, hjk, hj⟩
    simp only [nextUnusedPrimeAux]
    by_cases hmem : Sym.primeNT nm k ∈ taken
    · simp only [hmem, if_true]
      apply ih
      refine ⟨j, ?_, by omega, hj⟩
      rcases Nat.eq_or_lt_of_le hkj with h | h
      · exact absurd (h ▸ hmem) hj
      · omega
    · simp [hmem]

theorem nextUnusedPrime_not_mem (nm : String) (taken : List Sym) :
    nextUnusedPrime nm taken ∉ taken := by
  apply nextUnusedPrimeAux_spec
  -- Pigeonhole: among the prime counts `1, …, taken.length + 1` one is free.
  by_contra hall
  push_neg at hall
  have hsub : (List.range (taken.length + 1)).map
      (fun i => Sym.primeNT nm (i + 1)) ⊆ taken := by
    intro s hs
    simp only [List.mem_map, List.mem_range] at hs
    obtain ⟨i, hi, rfl⟩ := hs
    exact hall (i + 1) (by omega) (by omega)
  have hnd : ((List.range (taken.length + 1)).map
      (fun i => Sym.primeNT nm (i + 1))).Nodup := by
    refine List.Nodup.map ?_ (List.nodup_range _)
    intro a b hab
    simpa using hab
  have := (List.subperm_of_subset hnd hsub).length_le
  simp at this

theorem left_side_mem_nontermList {G : CFG} {p : Rule}
    (hp : p ∈ G.productions) : p.left_side ∈ G.nontermList := by
  unfold CFG.nontermList
  simp only [List.append_assoc, List.mem_append, List.mem_map]
  exact Or.inr (Or.inl ⟨p, hp, rfl⟩)

theorem right_side_nonterminal_mem_nontermList {G : CFG} {p : Rule} {s : Sym}
    (hp : p ∈ G.productions) (hs : s ∈ p.right_side)
    (hnt : s.isNonterminal = true) : s ∈ G.nontermList := by
  unfold CFG.nontermList
  simp only [List.append_assoc, List.mem_append, List.mem_flatMap]
  exact Or.inl ⟨p, hp, List.mem_filter.mpr ⟨hs, hnt⟩⟩

theorem primeNT_isNonterminal (nm : String) (k : Nat) :
    (Sym.primeNT nm k).isNonterminal = true := rfl

/-- If a grammar is not augmented, its start symbol is either one of its own
nonterminals or not a `PrimedNonterminal` at all; in both cases it differs
from the fresh primed start symbol chosen by `augmented`. -/
theorem start_ne_fresh {G : CFG} (h : isAugmented G = false) :
    G.start ≠ nextUnusedPrime G.start.name G.nontermList := by
  intro heq
  have hfresh := nextUnusedPrime_not_mem G.start.name G.nontermList
  rw [← heq] at hfresh
  unfold isAugmented at h
  simp only [Bool.and_eq_false_iff, decide_eq_false_iff_not, not_le,
    Bool.not_eq_false', List.any_eq_true, decide_eq_true_eq] at h
  rcases h with h | ⟨p, hp, hmem⟩
  · -- more than one rule has the start on its left side
    have : ∃ p ∈ G.productions, p.left_side = G.start := by
      rcases hfilter : G.productions.filter
          (fun p => p.left_side == G.start) with _ | ⟨q, qs⟩
      · rw [hfilter] at h; simp at h
      · have hq : q ∈ G.productions.filter (fun p => p.left_side == G.start) := by
          rw [hfilter]; exact List.mem_cons_self _ _
        have := List.mem_filter.mp hq
        exact ⟨q, this.1, by simpa using this.2⟩
    obtain ⟨p, hp, hlhs⟩ := this
    exact hfresh (hlhs ▸ left_side_mem_nontermList hp)
  · -- the start occurs on some right side
    have hnt : G.start.isNonterminal = true := by
      rw [heq]; rfl
    exact hfresh (right_side_nonterminal_mem_nontermList hp hmem hnt)

/-! ### C8: the symbol comparison operators -/

/-- C8 counterexample: the claim says that for any two symbols exactly one of
`s < t`, `s = t`, `t < s` holds.  For the subscripted nonterminals `S₁` and
`S₂` none of the three holds: they are unequal (different subscripts), yet
their sort keys `(variant-rank, identifier)` coincide because `__key__` does
not include the refinement, so neither is less than the other. -/
theorem symbol_order_counterexample :
    ¬ symLt (Sym.subNT "S" 1) (Sym.subNT "S" 2) ∧
      Sym.subNT "S" 1 ≠ Sym.subNT "S" 2 ∧
      ¬ symLt (Sym.subNT "S" 2) (Sym.subNT "S" 1) := by
  refine ⟨?_, by decide, ?_⟩ <;>
    · intro h
      rcases h with h | ⟨_, h⟩
      · simp [Sym.sortNum] at h
      · exact absurd h (lt_irrefl _)

theorem key_eq_of_eq {s t : Sym} (h : s = t) : s.key = t.key := by rw [h]

/-- C8 (amended): the comparison is trichotomous with respect to the sort key
`(variant-rank, identifier)`: for any two symbols exactly one of `s < t`,
`key s = key t`, `t < s` holds.  Equal symbols have equal keys, but two
subscripted (or primed) nonterminals with the same name and different
subscripts (or prime counts) are unequal yet have equal keys, so neither is
strictly less than the other. -/
theorem symLt_key_trichotomy (s t : Sym) :
    (symLt s t ∧ s.key ≠ t.key ∧ ¬ symLt t s) ∨
      (¬ symLt s t ∧ s.key = t.key ∧ ¬ symLt t s) ∨
      (¬ symLt s t ∧ s.key ≠ t.key ∧ symLt t s) := by
  unfold symLt Sym.key
  rcases lt_trichotomy s.sortNum t.sortNum with h | h | h
  · refine Or.inl ⟨Or.inl h, ?_, ?_⟩
    · intro hk
      exact absurd (congrArg Prod.fst hk) (ne_of_lt h)
    · rintro (h' | ⟨h', _⟩)
      · exact absurd h (lt_asymm h')
      · exact absurd h (h' ▸ lt_irrefl _)
  · rcases lt_trichotomy s.name t.name with hn | hn | hn
    · refine Or.inl ⟨Or.inr ⟨h, hn⟩, ?_, ?_⟩
      · intro hk
        exact absurd (congrArg Prod.snd hk) (ne_of_lt hn)
      · rintro (h' | ⟨_, h'⟩)
        · exact absurd h' (h ▸ lt_irrefl _)
        · exact absurd hn (lt_asymm h')
    · refine Or.inr (Or.inl ⟨?_, ?_, ?_⟩)
      · rintro (h' | ⟨_, h'⟩)
        · exact absurd h' (h ▸ lt_irrefl _)
        · exact absurd h' (hn ▸ lt_irrefl _)
      · rw [h, hn]
      · rintro (h' | ⟨_, h'⟩)
        · exact absurd h' (h ▸ lt_irrefl _)
        · exact absurd h' (hn ▸ lt_irrefl _)
    · refine Or.inr (Or.inr ⟨?_, ?_, Or.inr ⟨h.symm, hn⟩⟩)
      · rintro (h' | ⟨_, h'⟩)
        · exact absurd h' (h ▸ lt_irrefl _)
        · exact absurd hn (lt_asymm h')
      · intro hk
        exact absurd (congrArg Prod.snd hk) (ne_of_gt hn)
  · refine Or.inr (Or.inr ⟨?_, ?_, Or.inl h⟩)
    · rintro (h' | ⟨h', _⟩)
      · exact absurd h' (lt_asymm h)
      · exact absurd h (h' ▸ lt_irrefl _)
    · intro hk
      exact absurd (congrArg Prod.fst hk) (ne_of_gt h)

/-! ### C6 and C10: `augmented` -/

theorem isAugmented_iff (G : CFG) :
    isAugmented G = true ↔
      ((G.productions.filter fun p => p.left_side == G.start).length ≤ 1 ∧
        ∀ r ∈ G.productions, G.start ∉ r.right_side) := by
  unfold isAugmented
  simp

/-- C6 counterexample: the claim says `augmented(G)` returns `G` unchanged
iff the start symbol appears on the left side of exactly one production.  In
`gNoStartRule` the start symbol `S` appears on the left side of zero
productions (and on no right side), yet `augmented` returns the grammar
unchanged, because `is_augmented` tests `<= 1`, not `== 1`. -/
theorem augmented_unchanged_without_start_rule :
    augmented gNoStartRule = some gNoStartRule ∧
      (gNoStartRule.productions.filter
        fun p => p.left_side == gNoStartRule.start).length = 0 := by
  constructor
  · rfl
  · rfl

/-- C6 (amended): `augmented(G)` returns `G` unchanged iff the start symbol
of `G` appears on the left side of at most one production and on the right
side of none; in every other case it returns a new grammar whose start symbol
is a fresh primed version of `G`'s start, with the rule `S' → S` placed first
in the production list (provided the rebuilt grammar passes the constructor's
validation). -/
theorem augmented_unchanged_iff (G : CFG) :
    (augmented G = some G ↔
      ((G.productions.filter fun p => p.left_side == G.start).length ≤ 1 ∧
        ∀ r ∈ G.productions, G.start ∉ r.right_side)) ∧
      ∀ G', augmented G = some G' →
        G' = G ∨
          (G'.start = nextUnusedPrime G.start.name G.nontermList ∧
            G'.start ∉ G.nontermList ∧
            G'.productions = ⟨G'.start, [G.start]⟩ :: G.productions) := by
  constructor
  · constructor
    · intro h
      rw [← isAugmented_iff]
      by_contra hfalse
      rw [Bool.not_eq_true] at hfalse
      unfold augmented at h
      rw [hfalse] at h
      simp only [Bool.false_eq_true, if_false] at h
      unfold cfgOfTuple at h
      by_cases hchk : checkTuple
          (nextUnusedPrime G.start.name G.nontermList :: G.nontermList)
          G.termList
          (⟨nextUnusedPrime G.start.name G.nontermList, [G.start]⟩ ::
            G.productions)
          (nextUnusedPrime G.start.name G.nontermList) = true
      · rw [if_pos hchk] at h
        have hstart := congrArg CFG.start (Option.some_injective _ h)
        exact start_ne_fresh hfalse hstart.symm
      · rw [if_neg hchk] at h
        exact Option.noConfusion h
    · intro h
      unfold augmented
      rw [(isAugmented_iff G).mpr h]
      simp
  · intro G' h
    by_cases haug : isAugmented G = true
    · unfold augmented at h
      rw [haug] at h
      simp only [if_true] at h
      exact Or.inl (Option.some_injective _ h).symm
    · rw [Bool.not_eq_true] at haug
      unfold augmented at h
      rw [haug] at h
      simp only [Bool.false_eq_true, if_false] at h
      unfold cfgOfTuple at h
      by_cases hchk : checkTuple
          (nextUnusedPrime G.start.name G.nontermList :: G.nontermList)
          G.termList
          (⟨nextUnusedPrime G.start.name G.nontermList, [G.start]⟩ ::
            G.productions)
          (nextUnusedPrime G.start.name G.nontermList) = true
      · rw [if_pos hchk] at h
        obtain rfl := (Option.some_injective _ h).symm
        exact Or.inr ⟨rfl, nextUnusedPrime_not_mem _ _, rfl⟩
      · rw [if_neg hchk] at h
        exact Option.noConfusion h

/-- Witness for `augmented_unchanged_iff`: the grammar `S → aS` needs
augmentation, and the result has the fresh primed start `S'` with `S' → S`
first. -/
theorem augmented_unchanged_iff_witness :
    augmented gAug1 = some gAug1' ∧
      (gAug1' = gAug1 ∨
        (gAug1'.start = nextUnusedPrime gAug1.start.name gAug1.nontermList ∧
          gAug1'.start ∉ gAug1.nontermList ∧
          gAug1'.productions = ⟨gAug1'.start, [gAug1.start]⟩ ::
            gAug1.productions)) :=
  ⟨by decide, (augmented_unchanged_iff gAug1).2 gAug1' (by decide)⟩

/-- C10: `augmented` is idempotent: whenever `augmented G` returns a grammar
`G'`, that grammar satisfies `is_augmented`, so `augmented G'` returns `G'`
unchanged. -/
theorem augmented_idempotent (G G' : CFG) (h : augmented G = some G') :
    isAugmented G' = true ∧ augmented G' = some G' := by
  have hG' : isAugmented G' = true := by
    by_cases haug : isAugmented G = true
    · unfold augmented at h
      rw [haug] at h
      simp only [if_true] at h
      obtain rfl := Option.some_injective _ h
      exact haug
    · rw [Bool.not_eq_true] at haug
      unfold augmented at h
      rw [haug] at h
      simp only [Bool.false_eq_true, if_false] at h
      unfold cfgOfTuple at h
      by_cases hchk : checkTuple
          (nextUnusedPrime G.start.name G.nontermList :: G.nontermList)
          G.termList
          (⟨nextUnusedPrime G.start.name G.nontermList, [G.start]⟩ ::
            G.productions)
          (nextUnusedPrime G.start.name G.nontermList) = true
      · rw [if_pos hchk] at h
        obtain rfl := (Option.some_injective _ h).symm
        rw [isAugmented_iff]
        have hfresh := nextUnusedPrime_not_mem G.start.name G.nontermList
        constructor
        · -- only the new first rule has the fresh start on its left side
          have htail : (G.productions.filter
              fun p => p.left_side ==
                nextUnusedPrime G.start.name G.nontermList) = [] := by
            rw [List.filter_eq_nil_iff]
            intro p hp hbeq
            rw [beq_iff_eq] at hbeq
            exact hfresh (hbeq ▸ left_side_mem_nontermList hp)
          simp only [CFG.start, CFG.productions, List.filter_cons, htail]
          split <;> simp
        · -- the fresh start occurs on no right side
          intro r hr hmem
          simp only [CFG.productions, List.mem_cons] at hr
          rcases hr with rfl | hr
          · simp only [CFG.start, List.mem_singleton] at hmem
            exact start_ne_fresh haug hmem.symm
          · exact hfresh
              (right_side_nonterminal_mem_nontermList hr hmem rfl)
      · rw [if_neg hchk] at h
        exact Option.noConfusion h
  refine ⟨hG', ?_⟩
  unfold augmented
  rw [hG']
  simp

/-- Witness for `augmented_idempotent` at the concrete grammar `S → aS`. -/
theorem augmented_idempotent_witness :
    isAugmented gAug1' = true ∧ augmented gAug1' = some gAug1' :=
  augmented_idempotent gAug1 gAug1' (by decide)

/-! ### C9: the ε-production check of the CYK entry points -/

theorem checkArgs_ok {G : CFG} {w : List Sym}
    (hterm : ∀ a ∈ w, a.isTerminal = true)
    (hmem : ∀ a ∈ w, a ∈ G.termList) :
    checkArgs G w = .ok () := by
  unfold checkArgs
  have h1 : w.find? (fun a => !a.isTerminal) = none := by
    rw [List.find?_eq_none]
    intro a ha
    simp [hterm a ha]
  have h2 : w.find? (fun a => !(G.termList.contains a)) = none := by
    rw [List.find?_eq_none]
    intro a ha
    simp only [Bool.not_eq_true', Bool.not_eq_true]
    simp [List.contains, hmem a ha]
  rw [h1, h2]

/-- C9: for every grammar with at least one ε-production and every input
string over the grammar's declared terminals, both
`cocke_younger_kasami_algorithm(G, w, check=False)` and
`left_parse_from_parse_table(G, w, T, check=False)` raise the
"grammar has empty rules" `ValueError`: the `check` flag disables only the
CNF-shape check, never the ε-production check. -/
theorem cyk_epsilon_check_unconditional (G : CFG) (w : List Sym)
    (T : Nat → Nat → Finset Sym)
    (hempty : G.hasEmptyRules = true)
    (hterm : ∀ a ∈ w, a.isTerminal = true)
    (hmem : ∀ a ∈ w, a ∈ G.termList) :
    cockeYoungerKasami G w false =
        .error (.valueError "grammar has empty rules") ∧
      leftParseFromParseTable G w T false =
        .error (.valueError "grammar has empty rules") := by
  have hchk : cykCheckArgs G w false =
      .error (.valueError "grammar has empty rules") := by
    unfold cykCheckArgs
    rw [checkArgs_ok hterm hmem]
    simp [Bind.bind, Except.bind, hempty]
  constructor
  · unfold cockeYoungerKasami
    rw [hchk]
    rfl
  · unfold leftParseFromParseTable
    rw [hchk]
    rfl

/-- Witness for `cyk_epsilon_check_unconditional` at the grammar `S → ε`
with the empty input and the empty table. -/
theorem cyk_epsilon_check_unconditional_witness :
    cockeYoungerKasami ⟨[⟨Sym.nt "S", []⟩], Sym.nt "S", [], []⟩ [] false =
        .error (.valueError "grammar has empty rules") ∧
      leftParseFromParseTable ⟨[⟨Sym.nt "S", []⟩], Sym.nt "S", [], []⟩ []
          (fun _ _ => ∅) false =
        .error (.valueError "grammar has empty rules") :=
  cyk_epsilon_check_unconditional _ [] _ (by decide)
    (by intro a ha; cases ha) (by intro a ha; cases ha)

/-! ### Derivation length facts -/

theorem rewrite_length {G : CFG} {u v : List Sym}
    (hne : ∀ p ∈ G.productions, p.right_side ≠ [])
    (h : Rewrite G u v) : u.length ≤ v.length := by
  induction h with
  | head p hp s =>
    have : p.right_side.length ≥ 1 :=
      List.length_pos.mpr (hne p hp)
    simp only [List.length_cons, List.length_append]
    omega
  | cons x h ih =>
    simp only [List.length_cons]
    omega

theorem derives_length {G : CFG} {u v : List Sym}
    (hne : ∀ p ∈ G.productions, p.right_side ≠ [])
    (h : Derives G u v) : u.length ≤ v.length := by
  induction h with
  | refl => exact le_rfl
  | tail _ hstep ih => exact le_trans ih (rewrite_length hne hstep)

/-! ### Derivation decomposition lemmas -/

theorem rewrite_nil {G : CFG} {v : List Sym} : ¬ Rewrite G [] v := by
  intro h
  cases h

theorem rewrite_append_split {G : CFG} {x y v : List Sym}
    (h : Rewrite G (x ++ y) v) :
    (∃ x', Rewrite G x x' ∧ v = x' ++ y) ∨
      (∃ y', Rewrite G y y' ∧ v = x ++ y') := by
  induction x generalizing v with
  | nil =>
    right
    exact ⟨v, by simpa using h, rfl⟩
  | cons a x ih =>
    cases h with
    | head p hp s =>
      left
      exact ⟨p.right_side ++ x, Rewrite.head p hp x, by simp⟩
    | cons x' h' =>
      rcases ih h' with ⟨x1, hx1, rfl⟩ | ⟨y1, hy1, rfl⟩
      · exact Or.inl ⟨a :: x1, Rewrite.cons a hx1, rfl⟩
      · exact Or.inr ⟨y1, hy1, rfl⟩

theorem rewrite_append_left {G : CFG} {u v : List Sym} (h : Rewrite G u v)
    (x : List Sym) : Rewrite G (x ++ u) (x ++ v) := by
  induction x with
  | nil => simpa using h
  | cons a x ih => exact Rewrite.cons a ih

theorem rewrite_append_right {G : CFG} {u v : List Sym} (h : Rewrite G u v)
    (y : List Sym) : Rewrite G (u ++ y) (v ++ y) := by
  induction h with
  | head p hp s =>
    have := Rewrite.head p hp (s ++ y)
    simpa using this
  | cons x _ ih => exact Rewrite.cons x ih

theorem derives_append_right {G : CFG} {u v : List Sym} (h : Derives G u v)
    (y : List Sym) : Derives G (u ++ y) (v ++ y) := by
  induction h with
  | refl => exact Relation.ReflTransGen.refl
  | tail _ hstep ih =>
    exact Relation.ReflTransGen.tail ih (rewrite_append_right hstep y)

theorem derives_append_left {G : CFG} {u v : List Sym} (h : Derives G u v)
    (x : List Sym) : Derives G (x ++ u) (x ++ v) := by
  induction h with
  | refl => exact Relation.ReflTransGen.refl
  | tail _ hstep ih =>
    exact Relation.ReflTransGen.tail ih (rewrite_append_left hstep x)

theorem derives_append {G : CFG} {u1 v1 u2 v2 : List Sym}
    (h1 : Derives G u1 v1) (h2 : Derives G u2 v2) :
    Derives G (u1 ++ u2) (v1 ++ v2) :=
  Relation.ReflTransGen.trans (derives_append_right h1 u2)
    (derives_append_left h2 v1)

theorem derives_split {G : CFG} {u w : List Sym} (h : Derives G u w) :
    ∀ x y, u = x ++ y →
      ∃ w1 w2, w = w1 ++ w2 ∧ Derives G x w1 ∧ Derives G y w2 := by
  induction h using Relation.ReflTransGen.head_induction_on with
  | refl =>
    intro x y hxy
    exact ⟨x, y, hxy, Relation.ReflTransGen.refl, Relation.ReflTransGen.refl⟩
  | head hstep _ ih =>
    intro x y hxy
    subst hxy
    rcases rewrite_append_split hstep with ⟨x', hx, rfl⟩ | ⟨y', hy, rfl⟩
    · rcases ih x' y rfl with ⟨w1, w2, rfl, h1, h2⟩
      exact ⟨w1, w2, rfl, Relation.ReflTransGen.head hx h1, h2⟩
    · rcases ih x y' rfl with ⟨w1, w2, rfl, h1, h2⟩
      exact ⟨w1, w2, rfl, h1, Relation.ReflTransGen.head hy h2⟩

theorem not_terminal_and_nonterminal (s : Sym) :
    ¬ (s.isTerminal = true ∧ s.isNonterminal = true) := by
  cases s <;> simp [Sym.isTerminal, Sym.isNonterminal]

theorem terminal_stuck {G : CFG} {u v : List Sym}
    (hlhs : ∀ p ∈ G.productions, p.left_side.isNonterminal = true)
    (hu : ∀ s ∈ u, s.isTerminal = true) : ¬ Rewrite G u v := by
  intro h
  induction h with
  | head p hp s =>
    exact not_terminal_and_nonterminal p.left_side
      ⟨hu p.left_side (List.mem_cons_self _ _), hlhs p hp⟩
  | cons x h ih =>
    exact ih fun s hs => hu s (List.mem_cons_of_mem x hs)

theorem derives_terminal_eq {G : CFG} {u w : List Sym}
    (hlhs : ∀ p ∈ G.productions, p.left_side.isNonterminal = true)
    (hu : ∀ s ∈ u, s.isTerminal = true) (h : Derives G u w) : w = u := by
  rcases Relation.ReflTransGen.cases_head h with rfl | ⟨v, hstep, _⟩
  · rfl
  · exact absurd hstep (terminal_stuck hlhs hu)

theorem rewrite_single_inv {G : CFG} {A : Sym} {v : List Sym}
    (h : Rewrite G [A] v) :
    ∃ p ∈ G.productions, p.left_side = A ∧ v = p.right_side := by
  cases h with
  | head p hp s =>
    exact ⟨p, hp, rfl, by simp⟩
  | cons x h' =>
    exact absurd h' rewrite_nil

theorem derivesPlus_single_iff {G : CFG} {A : Sym} {u : List Sym} :
    DerivesPlus G [A] u ↔
      ∃ p ∈ G.productions, p.left_side = A ∧ Derives G p.right_side u := by
  constructor
  · intro h
    rcases (Relation.TransGen.head'_iff).mp h with ⟨v, hstep, hrest⟩
    rcases rewrite_single_inv hstep with ⟨p, hp, hlhs, rfl⟩
    exact ⟨p, hp, hlhs, hrest⟩
  · rintro ⟨p, hp, rfl, hder⟩
    refine Relation.TransGen.head' ?_ hder
    have := Rewrite.head p hp []
    simpa using this

/-! ### Facts about input slices -/

theorem sliceW_length {w : List Sym} {i j : Nat} (hi : 1 ≤ i)
    (hij : i + j ≤ w.length + 1) : (sliceW w i j).length = j := by
  unfold sliceW
  rw [List.length_take, List.length_drop]
  omega

theorem sliceW_one {w : List Sym} {i : Nat} (hi : 1 ≤ i)
    (hn : i ≤ w.length) : sliceW w i 1 = [wAt w i] := by
  unfold sliceW wAt
  have hlt : i - 1 < w.length := by omega
  rw [List.drop_eq_getElem_cons hlt, List.getD_eq_getElem?_getD,
    List.getElem?_eq_getElem hlt]
  rfl

theorem sliceW_split {w : List Sym} {i j k : Nat} (hi : 1 ≤ i) (hk : k ≤ j) :
    sliceW w i j = sliceW w i k ++ sliceW w (i + k) (j - k) := by
  unfold sliceW
  have h1 : List.take j (w.drop (i - 1)) =
      List.take k (w.drop (i - 1)) ++
        List.take (j - k) (List.drop k (w.drop (i - 1))) := by
    rw [← List.take_add]
    congr 1
    omega
  rw [h1, List.drop_drop]
  have h2 : i - 1 + k = i + k - 1 := by omega
  rw [h2]

theorem sliceW_take {w : List Sym} {i j k : Nat} (hk : k ≤ j) :
    (sliceW w i j).take k = sliceW w i k := by
  unfold sliceW
  rw [List.take_take]
  rw [Nat.min_eq_left hk]

theorem sliceW_drop {w : List Sym} {i j k : Nat} (hi : 1 ≤ i) :
    (sliceW w i j).drop k = sliceW w (i + k) (j - k) := by
  unfold sliceW
  rw [List.drop_take, List.drop_drop]
  have h2 : i - 1 + k = i + k - 1 := by omega
  rw [h2]

theorem sliceW_subset {w : List Sym} {i j : Nat} {s : Sym}
    (hs : s ∈ sliceW w i j) : s ∈ w := by
  unfold sliceW at hs
  exact List.mem_of_mem_drop (List.mem_of_mem_take hs)

/-! ### C4: correctness of the CYK table -/

theorem hasEmptyRules_false {G : CFG} (hne : G.hasEmptyRules = false) :
    ∀ p ∈ G.productions, p.right_side ≠ [] := by
  unfold CFG.hasEmptyRules at hne
  intro p hp hnil
  have := List.any_eq_false.mp hne p hp
  rw [hnil] at this
  simp at this

theorem isCnf_rules {G : CFG} (hcnf : isCnf G = true) :
    ∀ p ∈ G.productions, isCnfRule p G.start = true := by
  unfold isCnf at hcnf
  exact List.all_eq_true.mp hcnf

theorem isCnfRule_cases {G : CFG} (hcnf : isCnf G = true)
    (hne' : ∀ p ∈ G.productions, p.right_side ≠ [])
    {p : Rule} (hp : p ∈ G.productions) :
    (∃ a, a.isTerminal = true ∧ p.right_side = [a]) ∨
      (∃ B C, B.isNonterminal = true ∧ C.isNonterminal = true ∧
        p.right_side = [B, C]) := by
  have hr := isCnf_rules hcnf p hp
  unfold isCnfRule at hr
  rcases hrs : p.right_side with _ | ⟨x, _ | ⟨y, _ | ⟨z, t⟩⟩⟩
  · exact absurd hrs (hne' p hp)
  · rw [hrs] at hr
    simp at hr
    exact Or.inl ⟨x, hr, rfl⟩
  · rw [hrs] at hr
    simp at hr
    obtain ⟨⟨⟨hx, _⟩, hy⟩, _⟩ := hr
    exact Or.inr ⟨x, y, hx, hy, rfl⟩
  · rw [hrs] at hr
    simp at hr

theorem derives_nonterminal_plus {G : CFG} {B : Sym} {u : List Sym}
    (hB : B.isNonterminal = true) (hu : ∀ s ∈ u, s.isTerminal = true)
    (h : Derives G [B] u) : DerivesPlus G [B] u := by
  rcases Relation.ReflTransGen.cases_head h with heq | ⟨v, hstep, hrest⟩
  · exfalso
    have hBmem : B ∈ u := by
      rw [← heq]
      exact List.mem_cons_self _ _
    exact not_terminal_and_nonterminal B ⟨hu B hBmem, hB⟩
  · exact Relation.TransGen.head' hstep hrest

theorem derivesPlus_cnf_char {G : CFG}
    (hcnf : isCnf G = true)
    (hne' : ∀ p ∈ G.productions, p.right_side ≠ [])
    (hlhs : ∀ p ∈ G.productions, p.left_side.isNonterminal = true)
    {A : Sym} {u : List Sym} (hu : ∀ s ∈ u, s.isTerminal = true) :
    DerivesPlus G [A] u ↔
      ((⟨A, u⟩ : Rule) ∈ G.productions ∧ ∃ a, u = [a]) ∨
      (∃ B C u1 u2, (⟨A, [B, C]⟩ : Rule) ∈ G.productions ∧ u = u1 ++ u2 ∧
        u1 ≠ [] ∧ u2 ≠ [] ∧
        DerivesPlus G [B] u1 ∧ DerivesPlus G [C] u2) := by
  constructor
  · intro h
    rcases derivesPlus_single_iff.mp h with ⟨p, hp, hA, hder⟩
    rcases isCnfRule_cases hcnf hne' hp with ⟨a, ha, hrs⟩ | ⟨B, C, hB, hC, hrs⟩
    · rw [hrs] at hder
      have hu' : u = [a] := by
        refine derives_terminal_eq hlhs ?_ hder
        intro s hs
        rw [List.mem_singleton] at hs
        rw [hs]
        exact ha
      refine Or.inl ⟨?_, a, hu'⟩
      have hpe : (⟨A, u⟩ : Rule) = p := by
        cases p
        simp_all
      exact hpe ▸ hp
    · rw [hrs] at hder
      rcases derives_split hder [B] [C] rfl with ⟨u1, u2, huu, h1, h2⟩
      refine Or.inr ⟨B, C, u1, u2, ?_, huu, ?_, ?_, ?_, ?_⟩
      · have hpe : (⟨A, [B, C]⟩ : Rule) = p := by
          cases p
          simp_all
        exact hpe ▸ hp
      · intro hnil
        have := derives_length hne' h1
        rw [hnil] at this
        simp at this
      · intro hnil
        have := derives_length hne' h2
        rw [hnil] at this
        simp at this
      · refine derives_nonterminal_plus hB ?_ h1
        intro s hs
        refine hu s ?_
        rw [huu]
        exact List.mem_append_left _ hs
      · refine derives_nonterminal_plus hC ?_ h2
        intro s hs
        refine hu s ?_
        rw [huu]
        exact List.mem_append_right _ hs
  · rintro (⟨hp, a, rfl⟩ | ⟨B, C, u1, u2, hp, rfl, h1ne, h2ne, h1, h2⟩)
    · exact derivesPlus_single_iff.mpr ⟨⟨A, [a]⟩, hp, rfl,
        Relation.ReflTransGen.refl⟩
    · have hstep : Rewrite G [A] [B, C] := by
        have := Rewrite.head (⟨A, [B, C]⟩ : Rule) hp []
        simpa using this
      exact Relation.TransGen.head' hstep
        (derives_append h1.to_reflTransGen h2.to_reflTransGen)

theorem sliceW_full (w : List Sym) : sliceW w 1 w.length = w := by
  unfold sliceW
  simp

theorem cykUpTo_succ_ne {G : CFG} {w : List Sym} {n J i j : Nat}
    (h : j ≠ J + 1) :
    cykUpTo G w n (J + 1) i j = cykUpTo G w n J i j := by
  simp only [cykUpTo]
  rw [if_neg fun hc => h hc.1]

theorem cykUpTo_stable {G : CFG} {w : List Sym} {n i j : Nat} (J J' : Nat)
    (hjJ : j ≤ J) (hJ : J ≤ J') :
    cykUpTo G w n J' i j = cykUpTo G w n J i j := by
  induction J' with
  | zero =>
    have hz : J = 0 := by omega
    rw [hz]
  | succ K ih =>
    rcases Nat.eq_or_lt_of_le hJ with heq | hlt
    · rw [heq]
    · have hK : J ≤ K := by omega
      rw [cykUpTo_succ_ne (by omega), ih hK]

theorem cykFormula_congr {G : CFG} {T T' : Nat → Nat → Finset Sym} {i j : Nat}
    (h : ∀ i' j', 1 ≤ j' → j' < j → T i' j' = T' i' j') :
    cykFormula G T i j = cykFormula G T' i j := by
  unfold cykFormula
  refine Finset.biUnion_congr rfl ?_
  intro k' hk'
  rw [Finset.mem_range] at hk'
  dsimp only
  by_cases hg : 1 ≤ j - (k' + 1)
  · rw [if_pos hg, if_pos hg,
      h i (k' + 1) (by omega) (by omega),
      h (i + (k' + 1)) (j - (k' + 1)) hg (by omega)]
  · rw [if_neg hg, if_neg hg]

theorem cykTable_base {G : CFG} {w : List Sym} {i : Nat} (hi : 1 ≤ i)
    (hin : i ≤ w.length) : cykTable G w i 1 = cykBase G w i := by
  unfold cykTable
  have h1 : 1 ≤ w.length := by omega
  rw [cykUpTo_stable 1 w.length le_rfl h1]
  rw [show (1 : Nat) = 0 + 1 from rfl]
  have hcond : i + (0 + 1) ≤ w.length + 1 := by omega
  simp [cykUpTo, hi, hcond]

theorem cykTable_rec {G : CFG} {w : List Sym} {i j : Nat} (hi : 1 ≤ i)
    (hj : 2 ≤ j) (hij : i + j ≤ w.length + 1) :
    cykTable G w i j = cykFormula G (cykTable G w) i j := by
  unfold cykTable
  have hjn : j ≤ w.length := by omega
  rw [cykUpTo_stable j w.length le_rfl hjn]
  obtain ⟨J, rfl⟩ : ∃ J, j = J + 1 := ⟨j - 1, by omega⟩
  simp only [cykUpTo]
  have hc1 : ¬(J + 1 = 1) := by omega
  rw [if_pos ⟨trivial, hi, hij⟩, if_neg hc1]
  refine cykFormula_congr ?_
  intro i' j' h1 h2
  rw [cykUpTo_stable j' J le_rfl (by omega),
    cykUpTo_stable j' w.length le_rfl (by omega)]

theorem mem_cykBase_iff {G : CFG} {w : List Sym} {i : Nat} {A : Sym}
    (hcnf : isCnf G = true)
    (hne' : ∀ p ∈ G.productions, p.right_side ≠ [])
    (hwi : (wAt w i).isTerminal = true) :
    A ∈ cykBase G w i ↔ (⟨A, [wAt w i]⟩ : Rule) ∈ G.productions := by
  unfold cykBase
  rw [List.mem_toFinset]
  constructor
  · intro h
    rcases List.mem_map.mp h with ⟨p, hpf, hA⟩
    rcases List.mem_filter.mp hpf with ⟨hp, hhead⟩
    have hhead' : p.right_side.head? = some (wAt w i) := by
      simpa using hhead
    rcases isCnfRule_cases hcnf hne' hp with ⟨a, ha, hrs⟩ | ⟨B, C, hB, hC, hrs⟩
    · rw [hrs] at hhead'
      simp at hhead'
      have hpe : (⟨A, [wAt w i]⟩ : Rule) = p := by
        cases p
        simp_all
      exact hpe ▸ hp
    · rw [hrs] at hhead'
      simp at hhead'
      have hBt : (wAt w i).isNonterminal = true := by
        rw [← hhead']
        exact hB
      exact absurd ⟨hwi, hBt⟩ (not_terminal_and_nonterminal _)
  · intro hp
    refine List.mem_map.mpr ⟨⟨A, [wAt w i]⟩, List.mem_filter.mpr ⟨hp, ?_⟩, rfl⟩
    simp

theorem mem_cykFormula_iff {G : CFG} {T : Nat → Nat → Finset Sym}
    {i j : Nat} {A : Sym} :
    A ∈ cykFormula G T i j ↔
      ∃ k, 1 ≤ k ∧ k + 1 ≤ j ∧ ∃ B C,
        (⟨A, [B, C]⟩ : Rule) ∈ G.productions ∧
        B ∈ T i k ∧ C ∈ T (i + k) (j - k) := by
  unfold cykFormula
  simp only [Finset.mem_biUnion, Finset.mem_range]
  constructor
  · rintro ⟨k', hk', hmem⟩
    by_cases hg : 1 ≤ j - (k' + 1)
    · rw [if_pos hg, List.mem_toFinset] at hmem
      rcases List.mem_map.mp hmem with ⟨p, hpf, hA⟩
      rcases List.mem_filter.mp hpf with ⟨hp, hcond⟩
      rcases hrs : p.right_side with _ | ⟨B, _ | ⟨C, _ | _⟩⟩ <;>
        rw [hrs] at hcond <;> simp at hcond
      refine ⟨k' + 1, by omega, by omega, B, C, ?_, hcond.1, hcond.2⟩
      have hpe : (⟨A, [B, C]⟩ : Rule) = p := by
        cases p
        simp_all
      exact hpe ▸ hp
    · rw [if_neg hg] at hmem
      simp at hmem
  · rintro ⟨k, hk1, hkj, B, C, hp, hB, hC⟩
    refine ⟨k - 1, by omega, ?_⟩
    dsimp only
    have hk : k - 1 + 1 = k := by omega
    rw [hk, if_pos (by omega), List.mem_toFinset]
    refine List.mem_map.mpr ⟨⟨A, [B, C]⟩, List.mem_filter.mpr ⟨hp, ?_⟩, rfl⟩
    simp [hB, hC]

theorem cyk_cell_iff {G : CFG} {w : List Sym}
    (hcnf : isCnf G = true)
    (hne' : ∀ p ∈ G.productions, p.right_side ≠ [])
    (hlhs : ∀ p ∈ G.productions, p.left_side.isNonterminal = true)
    (hw : ∀ a ∈ w, a.isTerminal = true) :
    ∀ j i A, 1 ≤ i → 1 ≤ j → i + j ≤ w.length + 1 →
      (A ∈ cykTable G w i j ↔ DerivesPlus G [A] (sliceW w i j)) := by
  intro j
  induction j using Nat.strong_induction_on with
  | _ j ih =>
    intro i A hi hj hij
    have hterm : ∀ s ∈ sliceW w i j, s.isTerminal = true :=
      fun s hs => hw s (sliceW_subset hs)
    rcases Nat.lt_or_ge j 2 with hj1 | hj2
    · have hj1' : j = 1 := by omega
      subst hj1'
      have hin : i ≤ w.length := by omega
      have hwi : (wAt w i).isTerminal = true := by
        refine hterm (wAt w i) ?_
        rw [sliceW_one hi hin]
        exact List.mem_singleton_self _
      rw [cykTable_base hi hin, sliceW_one hi hin,
        mem_cykBase_iff hcnf hne' hwi,
        derivesPlus_cnf_char hcnf hne' hlhs
          (by rw [← sliceW_one hi hin]; exact hterm)]
      constructor
      · intro hp
        exact Or.inl ⟨hp, wAt w i, rfl⟩
      · rintro (⟨hp, a, ha⟩ | ⟨B, C, u1, u2, hp, huu, h1ne, h2ne, h1, h2⟩)
        · exact hp
        · exfalso
          have hlen := congrArg List.length huu
          simp [List.length_append] at hlen
          have h1p : 0 < u1.length := List.length_pos.mpr h1ne
          have h2p : 0 < u2.length := List.length_pos.mpr h2ne
          omega
    · rw [cykTable_rec hi hj2 hij, mem_cykFormula_iff,
        derivesPlus_cnf_char hcnf hne' hlhs hterm]
      constructor
      · rintro ⟨k, hk1, hkj, B, C, hp, hB, hC⟩
        have ihB := ih k (by omega) i B hi hk1 (by omega)
        have ihC := ih (j - k) (by omega) (i + k) C (by omega) (by omega)
          (by omega)
        refine Or.inr ⟨B, C, sliceW w i k, sliceW w (i + k) (j - k), hp,
          sliceW_split hi (by omega), ?_, ?_, ihB.mp hB, ihC.mp hC⟩
        · have hlk := sliceW_length (w := w) (i := i) (j := k) hi (by omega)
          intro hnil
          rw [hnil] at hlk
          simp at hlk
          omega
        · have hlk := sliceW_length (w := w) (i := i + k) (j := j - k)
            (by omega) (by omega)
          intro hnil
          rw [hnil] at hlk
          simp at hlk
          omega
      · rintro (⟨hp, a, ha⟩ | ⟨B, C, u1, u2, hp, huu, h1ne, h2ne, h1, h2⟩)
        · exfalso
          have hl := sliceW_length (w := w) (i := i) (j := j) hi hij
          rw [ha] at hl
          simp at hl
          omega
        · have hl := sliceW_length (w := w) (i := i) (j := j) hi hij
          rw [huu, List.length_append] at hl
          have h1p : 0 < u1.length := List.length_pos.mpr h1ne
          have h2p : 0 < u2.length := List.length_pos.mpr h2ne
          have hu1 : u1 = sliceW w i u1.length := by
            have ht := sliceW_take (w := w) (i := i) (j := j) (k := u1.length)
              (by omega)
            rw [huu, List.take_left] at ht
            exact ht
          have hu2 : u2 = sliceW w (i + u1.length) (j - u1.length) := by
            have ht := sliceW_drop (w := w) (i := i) (j := j) (k := u1.length)
              hi
            rw [huu, List.drop_left] at ht
            exact ht
          have ihB := ih u1.length (by omega) i B hi (by omega) (by omega)
          have ihC := ih (j - u1.length) (by omega) (i + u1.length) C
            (by omega) (by omega) (by omega)
          exact ⟨u1.length, by omega, by omega, B, C, hp,
            ihB.mpr (hu1 ▸ h1), ihC.mpr (hu2 ▸ h2)⟩

/-- C4: on a grammar in Chomsky normal form with no ε-productions whose
left sides are nonterminals, and a nonempty input of declared terminals,
`cocke_younger_kasami_algorithm(G, w)` succeeds and returns the table `T`
with `A ∈ T[i][j]` iff `A ⇒⁺ wᵢ … w_{i+j−1}` for all in-range `i`, `j`;
in particular `S ∈ T[1][n]` iff `S ⇒⁺ w`, i.e. iff `w ∈ L(G)`. -/
theorem cyk_table_iff_derives (G : CFG) (w : List Sym)
    (hcnf : isCnf G = true) (hne : G.hasEmptyRules = false)
    (hlhs : ∀ p ∈ G.productions, p.left_side.isNonterminal = true)
    (hw : ∀ a ∈ w, a.isTerminal = true)
    (hdecl : ∀ a ∈ w, a ∈ G.termList)
    (hn : 1 ≤ w.length) :
    cockeYoungerKasami G w true = .ok (cykTable G w) ∧
    (∀ i j A, 1 ≤ i → 1 ≤ j → i + j ≤ w.length + 1 →
      (A ∈ cykTable G w i j ↔ DerivesPlus G [A] (sliceW w i j))) ∧
    (G.start ∈ cykTable G w 1 w.length ↔ DerivesPlus G [G.start] w) := by
  have hne' := hasEmptyRules_false hne
  have hcell := cyk_cell_iff hcnf hne' hlhs hw
  refine ⟨?_, fun i j A hi hj hij => hcell j i A hi hj hij, ?_⟩
  · have hchk : cykCheckArgs G w true = Except.ok () := by
      unfold cykCheckArgs
      rw [checkArgs_ok hw hdecl]
      simp [Bind.bind, Except.bind, hne, hcnf]
    unfold cockeYoungerKasami
    rw [hchk]
    rfl
  · have hfin := hcell w.length 1 G.start le_rfl hn (by omega)
    rw [sliceW_full] at hfin
    exact hfin

/-- Closed instance of `cyk_table_iff_derives` at the CNF grammar `S → a`
and the input `w = a`. -/
theorem cyk_table_iff_derives_witness :
    Sym.nt "S" ∈ cykTable gCyk [Sym.tm "a"] 1 1 ↔
      DerivesPlus gCyk [Sym.nt "S"] [Sym.tm "a"] :=
  (cyk_table_iff_derives gCyk [Sym.tm "a"] (by decide) (by decide)
    (by decide) (by decide) (by decide) (by decide)).2.2

/-! ### C5: the top-down backtrack parser and left-parse tree leaves -/

theorem wAt_mem {w : List Sym} {i : Nat} (h1 : 1 ≤ i) (h2 : i ≤ w.length) :
    wAt w i ∈ w := by
  unfold wAt
  have hlt : i - 1 < w.length := by omega
  rw [List.getD_eq_getElem?_getD, List.getElem?_eq_getElem hlt]
  exact List.getElem_mem hlt

theorem take_append_wAt {w : List Sym} {i : Nat} (h1 : 1 ≤ i)
    (h2 : i ≤ w.length) : w.take (i - 1) ++ [wAt w i] = w.take i := by
  have hlt : i - 1 < w.length := by omega
  have h3 : i = (i - 1) + 1 := by omega
  conv_rhs => rw [h3]
  rw [List.take_succ, List.getElem?_eq_getElem hlt]
  unfold wAt
  rw [List.getD_eq_getElem?_getD, List.getElem?_eq_getElem hlt]
  rfl

theorem getLast?_decomp {α : Type} {l : List α} {x : α}
    (h : l.getLast? = some x) : l = l.dropLast ++ [x] := by
  have hne : l ≠ [] := by
    intro hnil
    rw [hnil] at h
    simp at h
  rw [List.getLast?_eq_getLast l hne] at h
  rw [← Option.some.inj h]
  exact (List.dropLast_append_getLast hne).symm

theorem simulate_append (G : CFG) (xs ys : List Entry) :
    ∀ st, simulate G (xs ++ ys) st =
      match simulate G xs st with
      | some st' => simulate G ys st'
      | none => none := by
  induction xs with
  | nil => intro st; rfl
  | cons e es ih =>
    intro st
    simp only [List.cons_append, simulate]
    cases simStep G st e with
    | none => rfl
    | some st' => exact ih st'

theorem simulate_snoc (G : CFG) (xs : List Entry) (e : Entry) (st) :
    simulate G (xs ++ [e]) st =
      match simulate G xs st with
      | some st' => simStep G st' e
      | none => none := by
  rw [simulate_append]
  cases simulate G xs st with
  | none => rfl
  | some st' =>
    show simulate G [e] st' = simStep G st' e
    simp only [simulate]
    cases simStep G st' e <;> rfl

theorem tdStep_inv {G : CFG} {w : List Sym} {c c' : TDConfig}
    (hdollar : Sym.marker "$" ∉ w)
    (hinv : TDInv G w c) (hstep : tdStep G w c = some c') :
    TDInv G w c' := by
  obtain ⟨st, i, alpha, beta⟩ := c
  cases st
  case t => simp [tdStep] at hstep
  case q =>
    obtain ⟨hok, hsim, hi1, hi2⟩ := hinv
    dsimp only at hok hsim hi1 hi2
    simp only [tdStep] at hstep
    by_cases hc : i = w.length + 1 ∧ beta = [Sym.marker "$"]
    · rw [if_pos hc] at hstep
      obtain rfl := Option.some.inj hstep
      dsimp only [TDInv]
      refine ⟨hok, ?_, rfl⟩
      rw [hc.2, hc.1] at hsim
      simpa using hsim
    · rw [if_neg hc] at hstep
      cases beta with
      | nil => simp at hstep
      | cons X rest =>
        dsimp only at hstep
        by_cases hX : X.isNonterminal = true
        · rw [if_pos hX] at hstep
          rcases halts : alts G X with _ | ⟨g1, gs⟩
          · simp [halts] at hstep
          · simp only [halts] at hstep
            obtain rfl := Option.some.inj hstep
            dsimp only [TDInv]
            refine ⟨?_, ?_, hi1, hi2⟩
            · intro e he
              rcases List.mem_append.mp he with he | he
              · exact hok e he
              · rw [List.mem_singleton] at he
                subst he
                exact hX
            · rw [simulate_snoc, hsim]
              simp [simStep, halts]
        · rw [if_neg hX] at hstep
          by_cases hXt : X.isTerminal = true
          · rw [if_pos hXt] at hstep
            by_cases hm : i ≤ w.length ∧ X = wAt w i
            · rw [if_pos hm] at hstep
              obtain ⟨hm1, hm2⟩ := hm
              obtain rfl := Option.some.inj hstep
              dsimp only [TDInv]
              refine ⟨?_, ?_, by omega, by omega⟩
              · intro e he
                rcases List.mem_append.mp he with he | he
                · exact hok e he
                · rw [List.mem_singleton] at he
                  subst he
                  refine ⟨hXt, ?_⟩
                  intro hXd
                  have hin : X ∈ w := hm2 ▸ wAt_mem hi1 hm1
                  rw [hXd] at hin
                  exact hdollar hin
              · rw [simulate_snoc, hsim]
                dsimp only
                simp only [simStep]
                rw [if_pos trivial, hm2, take_append_wAt hi1 hm1]
                simp
            · rw [if_neg hm] at hstep
              obtain rfl := Option.some.inj hstep
              exact ⟨hok, hsim, hi1, hi2⟩
          · rw [if_neg hXt] at hstep
            simp at hstep
  case b =>
    obtain ⟨hok, hsim, hi1, hi2⟩ := hinv
    dsimp only at hok hsim hi1 hi2
    simp only [tdStep] at hstep
    rcases hlast : alpha.getLast? with _ | e
    · simp [hlast] at hstep
    · have hdec := getLast?_decomp hlast
      cases e with
      | term a =>
        simp only [hlast] at hstep
        by_cases hat : a.isTerminal = true
        · rw [if_pos hat] at hstep
          obtain rfl := Option.some.inj hstep
          dsimp only [TDInv]
          rw [hdec, simulate_snoc] at hsim
          rcases hs0 : simulate G alpha.dropLast
              ([], [G.start, Sym.marker "$"]) with _ | st₀
          · simp [hs0] at hsim
          · simp only [hs0] at hsim
            obtain ⟨st01, st02⟩ := st₀
            cases st02 with
            | nil => simp [simStep] at hsim
            | cons bhd btl =>
              simp only [simStep] at hsim
              by_cases hba : bhd = a
              · rw [if_pos hba] at hsim
                obtain heq := Option.some.inj hsim
                have heq1 : st01 ++ [a] = w.take (i - 1) :=
                  congrArg Prod.fst heq
                have heq2 : btl = beta := congrArg Prod.snd heq
                have hlen : (w.take (i - 1)).length = st01.length + 1 := by
                  rw [← heq1]
                  simp
                rw [List.length_take] at hlen
                have hi2' : 2 ≤ i := by omega
                have hiw : i - 1 ≤ w.length := by omega
                have hsplit := take_append_wAt (w := w) (i := i - 1)
                  (by omega) hiw
                rw [← hsplit] at heq1
                obtain ⟨hst01, _⟩ := List.append_inj' heq1 rfl
                refine ⟨?_, ?_, by omega, by omega⟩
                · intro e he
                  refine hok e ?_
                  rw [hdec]
                  exact List.mem_append_left _ he
                · rw [hst01, hba, heq2]
              · rw [if_neg hba] at hsim
                simp at hsim
        · rw [if_neg hat] at hstep
          simp at hstep
      | alt A j =>
        simp only [hlast] at hstep
        rcases hgj : (alts G A).get? (j - 1) with _ | gj
        · simp only [hgj] at hstep
          exact Option.noConfusion hstep
        · simp only [hgj] at hstep
          rw [hdec, simulate_snoc] at hsim
          rcases hs0 : simulate G alpha.dropLast
              ([], [G.start, Sym.marker "$"]) with _ | st₀
          · simp [hs0] at hsim
          · simp only [hs0] at hsim
            obtain ⟨st01, st02⟩ := st₀
            cases st02 with
            | nil => simp [simStep] at hsim
            | cons B btl =>
              simp only [simStep] at hsim
              by_cases hBA : B = A
              · rw [if_pos hBA] at hsim
                simp only [hgj] at hsim
                obtain heq := Option.some.inj hsim
                have heq1 : st01 = w.take (i - 1) := congrArg Prod.fst heq
                have heq2 : gj ++ btl = beta := congrArg Prod.snd heq
                have hguard : beta.take gj.length = gj := by
                  rw [← heq2, List.take_left]
                rw [if_pos hguard] at hstep
                have hdrop : beta.drop gj.length = btl := by
                  rw [← heq2, List.drop_left]
                rcases hgj1 : (alts G A).get? j with _ | gj1
                · simp only [hgj1] at hstep
                  by_cases hfail : i = 1 ∧ A = G.start ∧
                      j ≤ (alts G A).length
                  · rw [if_pos hfail] at hstep
                    simp at hstep
                  · rw [if_neg hfail] at hstep
                    obtain rfl := Option.some.inj hstep
                    dsimp only [TDInv]
                    refine ⟨?_, ?_, hi1, hi2⟩
                    · intro e he
                      refine hok e ?_
                      rw [hdec]
                      exact List.mem_append_left _ he
                    · rw [hs0, heq1, hBA, hdrop]
                · simp only [hgj1] at hstep
                  obtain rfl := Option.some.inj hstep
                  dsimp only [TDInv]
                  refine ⟨?_, ?_, hi1, hi2⟩
                  · intro e he
                    rcases List.mem_append.mp he with he | he
                    · refine hok e ?_
                      rw [hdec]
                      exact List.mem_append_left _ he
                    · rw [List.mem_singleton] at he
                      subst he
                      have hA := hok (Entry.alt A j) (by
                        rw [hdec]
                        exact List.mem_append_right _
                          (List.mem_singleton_self _))
                      exact hA
                  · rw [simulate_snoc, hs0]
                    dsimp only
                    simp only [simStep]
                    rw [if_pos hBA]
                    simp only [Nat.add_sub_cancel]
                    simp only [hgj1]
                    rw [heq1, hdrop]
              · rw [if_neg hBA] at hsim
                simp at hsim

theorem tdRun_inv {G : CFG} {w : List Sym} (hdollar : Sym.marker "$" ∉ w) :
    ∀ fuel (c c' : TDConfig), TDInv G w c →
      tdRun G w fuel c = some c' → TDInv G w c'
  | 0, _, _, _, h => by simp [tdRun] at h
  | fuel + 1, c, c', hinv, h => by
    simp only [tdRun] at h
    rcases hst : tdStep G w c with _ | c1
    · simp only [hst] at h
      obtain rfl := Option.some.inj h
      exact hinv
    · simp only [hst] at h
      exact tdRun_inv hdollar fuel c1 c' (tdStep_inv hdollar hinv hst) h

theorem topdownParse_sound {G : CFG} {w : List Sym} {fuel : Nat}
    {π : List Nat} (hdollar : Sym.marker "$" ∉ w)
    (h : topdownParse G w fuel = some π) :
    ∃ alpha, π = hMap G alpha ∧ (∀ e ∈ alpha, EntryOK e) ∧
      simulate G alpha ([], [G.start, Sym.marker "$"]) =
        some (w, [Sym.marker "$"]) := by
  unfold topdownParse at h
  rcases hca : checkArgs G w with _ | _
  · simp only [hca] at h
    exact Option.noConfusion h
  · simp only [hca] at h
    rcases hrun : tdRun G w fuel ⟨QBT.q, 1, [], [G.start, Sym.marker "$"]⟩
      with _ | c
    · simp only [hrun] at h
      exact Option.noConfusion h
    · simp only [hrun] at h
      obtain ⟨st, i2, alpha, beta⟩ := c
      dsimp only at h
      have hinv0 : TDInv G w ⟨QBT.q, 1, [], [G.start, Sym.marker "$"]⟩ := by
        refine ⟨?_, ?_, ?_, ?_⟩
        · intro e he
          simp at he
        · simp [simulate]
        · dsimp only
          omega
        · dsimp only
          omega
      have hinv := tdRun_inv hdollar fuel _ _ hinv0 hrun
      by_cases hfin : st = QBT.t ∧ i2 = w.length + 1 ∧ beta = []
      · rw [if_pos hfin] at h
        obtain ⟨rfl, hi, rfl⟩ := hfin
        obtain ⟨hok, hsim, _⟩ := hinv
        exact ⟨alpha, (Option.some.inj h).symm, hok, hsim⟩
      · rw [if_neg hfin] at h
        exact Option.noConfusion h

theorem alts_mem_rule {G : CFG} {A : Sym} {j : Nat} {gj : List Sym}
    (h : (alts G A).get? j = some gj) : (⟨A, gj⟩ : Rule) ∈ G.productions := by
  have hmem : gj ∈ alts G A := List.get?_mem h
  unfold alts at hmem
  rcases List.mem_map.mp hmem with ⟨p, hpf, hrs⟩
  rcases List.mem_filter.mp hpf with ⟨hp, hleft⟩
  have hA : p.left_side = A := by simpa using hleft
  have hpe : (⟨A, gj⟩ : Rule) = p := by
    cases p
    simp_all
  exact hpe ▸ hp

theorem productions_get_tdIndex {G : CFG} {A : Sym} {j : Nat} {gj : List Sym}
    (h : (alts G A).get? (j - 1) = some gj) :
    ∃ k, tdIndex G A j = k + 1 ∧ G.productions.get? k = some ⟨A, gj⟩ := by
  have hmem := alts_mem_rule h
  have hlt : G.productions.indexOf (⟨A, gj⟩ : Rule) < G.productions.length :=
    List.indexOf_lt_length.mpr hmem
  have hgd : (alts G A).getD (j - 1) [] = gj := by
    rw [List.getD_eq_getElem?_getD, ← List.get?_eq_getElem?, h]
    rfl
  refine ⟨G.productions.indexOf (⟨A, gj⟩ : Rule), ?_, ?_⟩
  · unfold tdIndex idx1
    rw [hgd]
  · rw [List.get?_eq_getElem?, List.getElem?_eq_getElem hlt,
      List.getElem_indexOf hlt]

theorem leavesF_append : ∀ (f g : PForest),
    leavesF (appendF f g) = leavesF f ++ leavesF g
  | PForest.nil, _ => rfl
  | PForest.cons t ts, g => by
    simp [appendF, leavesF, leavesF_append ts g]

theorem leavesT_node_filter {A : Sym} (hA : A.isTerminal = false)
    (f : PForest) :
    (leavesT (PTree.node A f)).filter Sym.isTerminal =
      (leavesF f).filter Sym.isTerminal := by
  cases f
  · simp [leavesT, leavesF, hA]
  · rfl

theorem build_mono (G : CFG) :
    ∀ fuel fuel' syms parse res, build G fuel syms parse = some res →
      fuel ≤ fuel' → build G fuel' syms parse = some res
  | 0, _, _, _, _, h, _ => by simp [build] at h
  | fuel + 1, fuel', syms, parse, res, h, hle => by
    obtain ⟨fuel'', rfl⟩ : ∃ k, fuel' = k + 1 := ⟨fuel' - 1, by omega⟩
    have hle' : fuel ≤ fuel'' := by omega
    cases syms with
    | nil => exact h
    | cons c cs =>
      simp only [build] at h ⊢
      by_cases hc : c.isNonterminal = true
      · rw [if_pos hc] at h ⊢
        cases parse with
        | nil => exact h
        | cons k rest =>
          cases k with
          | zero => exact h
          | succ k' =>
            rcases hrule : G.productions.get? k' with _ | rule
            · simp only [hrule] at h ⊢
              exact h
            · simp only [hrule] at h ⊢
              by_cases hl : rule.left_side = c
              · rw [if_pos hl] at h ⊢
                rcases h1 : build G fuel rule.right_side rest
                  with _ | ⟨children, rest1⟩
                · simp only [h1] at h
                  exact Option.noConfusion h
                · simp only [h1] at h
                  rcases h2 : build G fuel cs rest1 with _ | ⟨ts, rest2⟩
                  · simp only [h2] at h
                    exact Option.noConfusion h
                  · simp only [h2] at h
                    have h1' := build_mono G fuel fuel'' rule.right_side
                      rest _ h1 hle'
                    have h2' := build_mono G fuel fuel'' cs rest1 _ h2 hle'
                    simp only [h1', h2']
                    exact h
              · rw [if_neg hl] at h ⊢
                exact h
      · rw [if_neg hc] at h ⊢
        rcases h1 : build G fuel cs parse with _ | ⟨ts, rest1⟩
        · simp only [h1] at h
          exact Option.noConfusion h
        · simp only [h1] at h
          have h1' := build_mono G fuel fuel'' cs parse _ h1 hle'
          simp only [h1']
          exact h

theorem build_append (G : CFG) :
    ∀ fuel xs ys parse forest rest,
      build G fuel (xs ++ ys) parse = some (forest, rest) →
      ∃ f1 mid f2, build G fuel xs parse = some (f1, mid) ∧
        build G fuel ys mid = some (f2, rest) ∧ forest = appendF f1 f2
  | 0, _, _, _, _, _, h => by simp [build] at h
  | fuel + 1, [], ys, parse, forest, rest, h => by
    refine ⟨PForest.nil, parse, forest, ?_, h, rfl⟩
    simp [build]
  | fuel + 1, x :: xs, ys, parse, forest, rest, h => by
    simp only [List.cons_append] at h
    simp only [build] at h ⊢
    by_cases hc : x.isNonterminal = true
    · rw [if_pos hc] at h ⊢
      cases parse with
      | nil => exact Option.noConfusion h
      | cons k rest0 =>
        cases k with
        | zero => exact Option.noConfusion h
        | succ k' =>
          rcases hrule : G.productions.get? k' with _ | rule
          · simp only [hrule] at h
            exact Option.noConfusion h
          · simp only [hrule] at h ⊢
            by_cases hl : rule.left_side = x
            · rw [if_pos hl] at h ⊢
              rcases h1 : build G fuel rule.right_side rest0
                with _ | ⟨children, rest1⟩
              · simp only [h1] at h
                exact Option.noConfusion h
              · simp only [h1] at h
                rcases h2 : build G fuel (xs ++ ys) rest1
                  with _ | ⟨f12, rest2⟩
                · simp only [h2] at h
                  exact Option.noConfusion h
                · simp only [h2] at h
                  simp only [Option.some.injEq, Prod.mk.injEq] at h
                  obtain ⟨rfl, rfl⟩ := h
                  obtain ⟨f1, mid, f2, hb1, hb2, rfl⟩ :=
                    build_append G fuel xs ys rest1 f12 rest2 h2
                  refine ⟨PForest.cons (PTree.node rule.left_side children)
                    f1, mid, f2, ?_, build_mono G fuel (fuel + 1) ys mid _
                      hb2 (by omega), rfl⟩
                  simp only [h1, hb1]
            · rw [if_neg hl] at h
              exact Option.noConfusion h
    · rw [if_neg hc] at h ⊢
      rcases h1 : build G fuel (xs ++ ys) parse with _ | ⟨f12, rest1⟩
      · simp only [h1] at h
        exact Option.noConfusion h
      · simp only [h1] at h
        simp only [Option.some.injEq, Prod.mk.injEq] at h
        obtain ⟨rfl, rfl⟩ := h
        obtain ⟨f1, mid, f2, hb1, hb2, rfl⟩ :=
          build_append G fuel xs ys parse f12 rest1 h1
        refine ⟨PForest.cons (PTree.node x PForest.nil) f1, mid, f2, ?_,
          build_mono G fuel (fuel + 1) ys mid _ hb2 (by omega), rfl⟩
        simp only [hb1]

theorem hMap_cons_term (G : CFG) (a : Sym) (alpha : List Entry) :
    hMap G (Entry.term a :: alpha) = hMap G alpha := rfl

theorem hMap_cons_alt (G : CFG) (A : Sym) (j : Nat) (alpha : List Entry) :
    hMap G (Entry.alt A j :: alpha) = tdIndex G A j :: hMap G alpha := rfl

theorem build_of_simulate (G : CFG) :
    ∀ (alpha : List Entry) (γ c₀ c : List Sym),
      (∀ e ∈ alpha, EntryOK e) →
      simulate G alpha (c₀, γ ++ [Sym.marker "$"]) =
        some (c, [Sym.marker "$"]) →
      ∃ fuel forest,
        build G fuel γ (hMap G alpha) = some (forest, []) ∧
        c = c₀ ++ (leavesF forest).filter Sym.isTerminal
  | [], γ, c₀, c, _, hsim => by
    simp only [simulate, Option.some.injEq, Prod.mk.injEq] at hsim
    obtain ⟨rfl, hγ⟩ := hsim
    have hγnil : γ = [] := by
      cases γ with
      | nil => rfl
      | cons s γ' =>
        exfalso
        have := congrArg List.length hγ
        simp at this
    subst hγnil
    exact ⟨1, PForest.nil, rfl, by simp [leavesF]⟩
  | e :: alpha₁, γ, c₀, c, hok, hsim => by
    simp only [simulate] at hsim
    rcases hst : simStep G (c₀, γ ++ [Sym.marker "$"]) e with _ | st'
    · simp only [hst] at hsim
      exact Option.noConfusion hsim
    · simp only [hst] at hsim
      cases e with
      | term a =>
        obtain ⟨hat, hane⟩ := hok _ (List.mem_cons_self _ _)
        cases γ with
        | nil =>
          exfalso
          simp only [List.nil_append, simStep] at hst
          rw [if_neg fun hh => hane hh.symm] at hst
          exact Option.noConfusion hst
        | cons s γ' =>
          simp only [List.cons_append, simStep] at hst
          by_cases hsa : s = a
          · rw [if_pos hsa] at hst
            obtain rfl := Option.some.inj hst
            subst hsa
            obtain ⟨fuel, forest, hb, hc⟩ :=
              build_of_simulate G alpha₁ γ' (c₀ ++ [s]) c
                (fun e he => hok e (List.mem_cons_of_mem _ he)) hsim
            have hnt : ¬(s.isNonterminal = true) := fun hh =>
              not_terminal_and_nonterminal s ⟨hat, hh⟩
            refine ⟨fuel + 1,
              PForest.cons (PTree.node s PForest.nil) forest, ?_, ?_⟩
            · rw [hMap_cons_term]
              simp only [build]
              rw [if_neg hnt]
              simp only [hb]
            · rw [hc]
              simp [leavesF, leavesT, hat]
          · rw [if_neg hsa] at hst
            exact Option.noConfusion hst
      | alt A j =>
        have hA : A.isNonterminal = true := hok _ (List.mem_cons_self _ _)
        have hAt : A.isTerminal = false := by
          rcases hbool : A.isTerminal with _ | _
          · rfl
          · exact absurd ⟨hbool, hA⟩ (not_terminal_and_nonterminal A)
        cases γ with
        | nil =>
          exfalso
          simp only [List.nil_append, simStep] at hst
          have hne : ¬(Sym.marker "$" = A) := by
            intro hh
            rw [← hh] at hA
            simp [Sym.isNonterminal] at hA
          rw [if_neg hne] at hst
          exact Option.noConfusion hst
        | cons s γ' =>
          simp only [List.cons_append, simStep] at hst
          by_cases hsA : s = A
          · rw [if_pos hsA] at hst
            rcases hgj : (alts G A).get? (j - 1) with _ | gj
            · simp only [hgj] at hst
              exact Option.noConfusion hst
            · simp only [hgj] at hst
              obtain rfl := Option.some.inj hst
              subst hsA
              have hsim' : simulate G alpha₁
                  (c₀, (gj ++ γ') ++ [Sym.marker "$"]) =
                  some (c, [Sym.marker "$"]) := by
                rw [List.append_assoc]
                exact hsim
              obtain ⟨fuel, forest, hb, hc⟩ :=
                build_of_simulate G alpha₁ (gj ++ γ') c₀ c
                  (fun e he => hok e (List.mem_cons_of_mem _ he)) hsim'
              obtain ⟨f1, mid, f2, hb1, hb2, rfl⟩ :=
                build_append G fuel gj γ' (hMap G alpha₁) forest [] hb
              obtain ⟨k, hk, hget⟩ := productions_get_tdIndex hgj
              refine ⟨fuel + 1, PForest.cons (PTree.node s f1) f2, ?_, ?_⟩
              · rw [hMap_cons_alt, hk]
                simp only [build]
                rw [if_pos hA]
                simp only [hget]
                rw [if_pos trivial]
                simp only [hb1, hb2]
              · rw [hc, leavesF_append]
                simp [leavesF, List.filter_append,
                  leavesT_node_filter hAt f1]
          · rw [if_neg hsA] at hst
            exact Option.noConfusion hst

/-- C5 (amended): whenever `topdown_backtrack_parse(G, w)` returns a parse
`π` and `LeftParse(G, π).tree()` builds a tree `t`, the TERMINAL leaves of
`t`, enumerated left to right, are exactly `w`.  The claimed equality of all
leaves with `w` is false: `iter_leaves` yields the value of every childless
node, and an ε-rule produces a childless nonterminal node, so nonterminals
can appear among the leaves (see the counterexample on `S → ε`). -/
theorem topdown_leftparse_terminal_leaves (G : CFG) (w : List Sym)
    (fuel fuelT : Nat) (π : List Nat) (t : PTree)
    (hdollar : Sym.marker "$" ∉ w)
    (hrun : topdownParse G w fuel = some π)
    (htree : leftParseTree G π fuelT = some t) :
    (leavesT t).filter Sym.isTerminal = w := by
  obtain ⟨alpha, rfl, hok, hsim⟩ := topdownParse_sound hdollar hrun
  have hsim' : simulate G alpha ([], [G.start] ++ [Sym.marker "$"]) =
      some (w, [Sym.marker "$"]) := hsim
  obtain ⟨f, forest, hbuild, hw⟩ :=
    build_of_simulate G alpha [G.start] [] w hok hsim'
  unfold leftParseTree at htree
  rcases hb : build G fuelT [G.start] (hMap G alpha) with _ | ⟨f', rest'⟩
  · simp only [hb] at htree
    exact Option.noConfusion htree
  · simp only [hb] at htree
    have hdet : build G (max f fuelT) [G.start] (hMap G alpha) =
        some (forest, []) :=
      build_mono G f (max f fuelT) _ _ _ hbuild (le_max_left _ _)
    have hdet2 : build G (max f fuelT) [G.start] (hMap G alpha) =
        some (f', rest') :=
      build_mono G fuelT (max f fuelT) _ _ _ hb (le_max_right _ _)
    rw [hdet] at hdet2
    have hpair := Option.some.inj hdet2
    rw [Prod.mk.injEq] at hpair
    obtain ⟨rfl, rfl⟩ := hpair
    cases forest with
    | nil => simp at htree
    | cons t0 ts =>
      cases ts with
      | nil =>
        simp only [Option.some.injEq] at htree
        subst htree
        rw [hw]
        simp [leavesF]
      | cons t1 ts1 => simp at htree

/-- C5 counterexample: on the grammar `S → ε` with the empty input, the
parser returns the parse `[1]`, whose tree is the childless root `S`;
`iter_leaves` yields the value of that childless node, so the leaves are
`[S]`, which differs from the input `[]`. -/
theorem leftparse_leaves_counterexample :
    topdownParse gEps [] 10 = some [1] ∧
    leftParseTree gEps [1] 2 = some (PTree.node (Sym.nt "S") PForest.nil) ∧
    leavesT (PTree.node (Sym.nt "S") PForest.nil) = [Sym.nt "S"] ∧
    ([Sym.nt "S"] : List Sym) ≠ ([] : List Sym) :=
  ⟨rfl, rfl, rfl, by decide⟩

/-- Closed instance of `topdown_leftparse_terminal_leaves` at the grammar
`S → a` and the input `w = a`. -/
theorem topdown_leftparse_terminal_leaves_witness :
    (leavesT (PTree.node (Sym.nt "S")
      (PForest.cons (PTree.node (Sym.tm "a") PForest.nil)
        PForest.nil))).filter Sym.isTerminal = [Sym.tm "a"] :=
  topdown_leftparse_terminal_leaves gCyk [Sym.tm "a"] 20 3 [1]
    (PTree.node (Sym.nt "S") (PForest.cons (PTree.node (Sym.tm "a")
      PForest.nil) PForest.nil))
    (by decide) rfl rfl

/-! ### C2 and C3: the Chomsky-normal-form transformation -/

/-- C2: the claim says `is_cnf(ChomskyNormalForm(G))` holds for every
grammar.  On `S → abc` the transformation returns the grammar `gAbcCnf`,
which contains the rules `⟨bc⟩₁ → bc` and `⟨bc⟩₂ → bc` with two terminals on
the right side, so `is_cnf` is false: the terminal-proxying loop advances
its index by `len(new_rules)`, the leftover length of the *chaining* loop's
final splice (here 2), and therefore skips every other rule. -/
theorem cnf_not_cnf_on_gAbc :
    chomskyNormalForm gAbc 100 = some gAbcCnf ∧ isCnf gAbcCnf = false := by
  constructor
  · decide
  · decide

/-- C3: the claim says the conversion preserves ε-membership, producing
`S₀ → ε` exactly when ε ∈ L(G).  On `S → a | ε` (whose language contains ε)
the result is `[S₀ → a, S → a]`: it has no ε-production at all, and its
language does not contain ε (every rule has a nonempty right side, so
derivations never shrink): the ε-removal loop substitutes only into
`productions[1:]` and never into `S₀ → S`, so `S₀ → ε` is never created. -/
theorem cnf_loses_epsilon_on_gSaEps :
    chomskyNormalForm gSaEps 100 = some gSaEpsCnf ∧
      Derives gSaEps [gSaEps.start] [] ∧
      (∀ r ∈ gSaEpsCnf.productions, r.right_side ≠ []) ∧
      ¬ Derives gSaEpsCnf [gSaEpsCnf.start] [] := by
  refine ⟨by decide, ?_, by decide, ?_⟩
  · refine Relation.ReflTransGen.single ?_
    simpa using Rewrite.head ⟨Sym.nt "S", []⟩ (by decide) []
  · intro h
    have := derives_length (by decide) h
    simp at this

/-! ### C7: the multi-valued ACTION table -/

theorem addAction_length (rows : List ARow) (i : Nat) (X : Sym) (a : SAction) :
    (addAction rows i X a).length = rows.length := by
  unfold addAction
  exact List.length_set rows i _

theorem find?_map_bump (X : Sym) (a : SAction) : ∀ row : ARow,
    (row.map fun e => if e.1 = X then (e.1, e.2 ++ [a]) else e).find?
        (fun e => e.1 == X) =
      (row.find? fun e => e.1 == X).map fun e => (e.1, e.2 ++ [a]) := by
  intro row
  induction row with
  | nil => rfl
  | cons e rest ih =>
    by_cases he : e.1 = X
    · simp [List.find?_cons, he]
    · simp only [List.map_cons, if_neg he, List.find?_cons]
      have hbeq : (e.1 == X) = false := by simp [he]
      rw [hbeq]
      simp only [cond_false]
      exact ih

theorem find?_map_bump_ne (X : Sym) (a : SAction) (Y : Sym) (hXY : Y ≠ X) :
    ∀ row : ARow,
    (row.map fun e => if e.1 = X then (e.1, e.2 ++ [a]) else e).find?
        (fun e => e.1 == Y) =
      row.find? fun e => e.1 == Y := by
  intro row
  induction row with
  | nil => rfl
  | cons e rest ih =>
    by_cases hy : e.1 = Y
    · have hx : ¬ e.1 = X := fun h => hXY (hy.symm.trans h)
      simp only [List.map_cons, if_neg hx, List.find?_cons]
      have hbeq : (e.1 == Y) = true := by simp [hy]
      rw [hbeq]
    · have hbeq : (e.1 == Y) = false := by simp [hy]
      by_cases hx : e.1 = X
      · simp only [List.map_cons, if_pos hx, List.find?_cons]
        have hbeq2 : (((e.1, e.2 ++ [a]) : Sym × List SAction).1 == Y) =
            false := hbeq
        rw [hbeq2]
        exact ih
      · simp only [List.map_cons, if_neg hx, List.find?_cons]
        rw [hbeq]
        exact ih

theorem rowCell_rowAdd_self (row : ARow) (X : Sym) (a : SAction) :
    rowCell (rowAdd row X a) X = rowCell row X ++ [a] := by
  unfold rowAdd
  by_cases hany : row.any (fun e => e.1 == X) = true
  · simp only [hany, if_true]
    unfold rowCell
    rw [find?_map_bump]
    rcases hf : row.find? fun e => e.1 == X with _ | e
    · rw [List.find?_eq_none] at hf
      rcases List.any_eq_true.mp hany with ⟨e, he, hbe⟩
      exact absurd hbe (hf e he)
    · simp [hf]
  · simp only [hany, if_false, Bool.false_eq_true]
    have hrow : row.find? (fun e => e.1 == X) = none := by
      rw [List.find?_eq_none]
      intro e he hc
      exact hany (List.any_eq_true.mpr ⟨e, he, hc⟩)
    unfold rowCell
    rw [List.find?_append, hrow]
    simp

theorem rowCell_rowAdd_ne (row : ARow) (X : Sym) (a : SAction) (Y : Sym)
    (hXY : Y ≠ X) : rowCell (rowAdd row X a) Y = rowCell row Y := by
  unfold rowAdd
  by_cases hany : row.any (fun e => e.1 == X) = true
  · simp only [hany, if_true]
    unfold rowCell
    rw [find?_map_bump_ne X a Y hXY]
  · simp only [hany, if_false, Bool.false_eq_true]
    unfold rowCell
    rw [List.find?_append]
    have hsing : [((X, [a]) : Sym × List SAction)].find?
        (fun e => e.1 == Y) = none := by
      have hne : ¬ X = Y := fun h => hXY h.symm
      simp [hne]
    cases hfind : row.find? (fun e => e.1 == Y) <;> simp [hfind, hsing]

theorem actionCell_addAction_self (rows : List ARow) (i : Nat) (X : Sym)
    (a : SAction) (h : i < rows.length) :
    actionCell (addAction rows i X a) i X = actionCell rows i X ++ [a] := by
  unfold actionCell addAction
  have hget : (rows.set i (rowAdd (rows.getD i []) X a)).getD i [] =
      rowAdd (rows.getD i []) X a := by
    simp [List.getD_eq_getElem?_getD, List.getElem?_set_self, h]
  rw [hget, rowCell_rowAdd_self]

theorem actionCell_addAction_mono {b : SAction} {rows : List ARow}
    {i' : Nat} {X' : Sym} (i : Nat) (X : Sym) (a : SAction)
    (h : b ∈ actionCell rows i' X') :
    b ∈ actionCell (addAction rows i X a) i' X' := by
  by_cases hlen : i < rows.length
  · by_cases hii : i' = i
    · subst hii
      by_cases hXX : X' = X
      · subst hXX
        rw [actionCell_addAction_self rows i' X' a hlen]
        exact List.mem_append_left _ h
      · unfold actionCell addAction
        have hget : (rows.set i' (rowAdd (rows.getD i' []) X a)).getD i' [] =
            rowAdd (rows.getD i' []) X a := by
          simp [List.getD_eq_getElem?_getD, List.getElem?_set_self, hlen]
        rw [hget, rowCell_rowAdd_ne _ _ _ _ hXX]
        exact h
    · unfold actionCell addAction
      have hget : (rows.set i (rowAdd (rows.getD i []) X a)).getD i' [] =
          rows.getD i' [] := by
        simp [List.getD_eq_getElem?_getD,
          List.getElem?_set_ne (fun hc => hii hc.symm)]
      rw [hget]
      exact h
  · unfold addAction
    rw [List.set_eq_of_length_le (Nat.le_of_not_lt hlen)]
    exact h

theorem foldl_cell_mono {α : Type} {g : List ARow → α → List ARow}
    (hg : ∀ rows x b i X, b ∈ actionCell rows i X →
      b ∈ actionCell (g rows x) i X)
    (l : List α) {b : SAction} {i : Nat} {X : Sym} :
    ∀ rows, b ∈ actionCell rows i X → b ∈ actionCell (l.foldl g rows) i X := by
  induction l with
  | nil => intro rows h; exact h
  | cons y l ih => intro rows h; exact ih (g rows y) (hg rows y _ _ _ h)

theorem foldl_rows_length {α : Type} {g : List ARow → α → List ARow}
    (hg : ∀ rows x, (g rows x).length = rows.length)
    (l : List α) : ∀ rows, (l.foldl g rows).length = rows.length := by
  induction l with
  | nil => intro rows; rfl
  | cons y l ih => intro rows; rw [List.foldl_cons, ih, hg]

theorem foldl_cell_point {α : Type} {g : List ARow → α → List ARow}
    (hmono : ∀ rows x b i X, b ∈ actionCell rows i X →
      b ∈ actionCell (g rows x) i X)
    (hlen : ∀ rows x, (g rows x).length = rows.length)
    {l : List α} {x : α} (hx : x ∈ l) {b : SAction} {i : Nat} {X : Sym}
    (n : Nat)
    (hhit : ∀ rows', rows'.length = n → b ∈ actionCell (g rows' x) i X) :
    ∀ rows, rows.length = n → b ∈ actionCell (l.foldl g rows) i X := by
  induction l with
  | nil => cases hx
  | cons y l ih =>
    intro rows hn
    rcases List.mem_cons.mp hx with rfl | hx'
    · exact foldl_cell_mono hmono l _ (hhit rows hn)
    · exact ih hx' (g rows y) (by rw [hlen, hn])

theorem foldl_autoStep_states_le (i : Nat) (l : List (Sym × List SItem)) :
    ∀ st, st.1.length ≤ (l.foldl (autoStep i) st).1.length := by
  induction l with
  | nil => intro st; exact le_rfl
  | cons XJ l ih =>
    intro st
    refine le_trans ?_ (ih (autoStep i st XJ))
    unfold autoStep
    rcases st.1.findIdx? fun K => itemsetEq K XJ.2 with _ | idx
    · simp
    · simp

theorem foldl_autoStep_inv (i : Nat) (l : List (Sym × List SItem)) :
    ∀ st, (∀ t ∈ st.2, t.1 < st.1.length) → i < st.1.length →
      ∀ t ∈ (l.foldl (autoStep i) st).2,
        t.1 < (l.foldl (autoStep i) st).1.length := by
  induction l with
  | nil => intro st h _; exact h
  | cons XJ l ih =>
    intro st h hi
    refine ih (autoStep i st XJ) ?_ ?_
    · intro t ht
      rcases hfind : st.1.findIdx? fun K => itemsetEq K XJ.2 with _ | idx
      · simp only [autoStep, hfind] at ht ⊢
        rcases List.mem_append.mp ht with ht | ht
        · have := h t ht
          simp only [List.length_append, List.length_singleton]
          omega
        · simp only [List.mem_singleton] at ht
          subst ht
          simp only [List.length_append, List.length_singleton]
          omega
      · simp only [autoStep, hfind] at ht ⊢
        rcases List.mem_append.mp ht with ht | ht
        · exact h t ht
        · simp only [List.mem_singleton] at ht
          subst ht
          exact hi
    · refine lt_of_lt_of_le hi ?_
      rcases hfind : st.1.findIdx? fun K => itemsetEq K XJ.2 with _ | idx
      · simp [autoStep, hfind]
      · simp [autoStep, hfind]

theorem automatonLoop_trans_lt (Gp : CFG) :
    ∀ fuel i states tr, (∀ t ∈ tr, t.1 < states.length) →
      ∀ t ∈ (automatonLoop Gp fuel i states tr).2,
        t.1 < (automatonLoop Gp fuel i states tr).1.length := by
  intro fuel
  induction fuel with
  | zero => intro i states tr h; exact h
  | succ fuel ih =>
    intro i states tr h
    unfold automatonLoop
    by_cases hi : i < states.length
    · simp only [hi, if_true]
      exact ih (i + 1) _ _
        (foldl_autoStep_inv i _ (states, tr) h hi)
    · simp only [hi, if_false, Bool.false_eq_true]
      exact h

theorem slrAutomaton_trans_lt {G : CFG} {fuel : Nat} {Gp : CFG}
    {states : List (List SItem)} {tr : List (Nat × Sym × Nat)}
    (hA : slrAutomaton G fuel = some (Gp, states, tr)) :
    ∀ t ∈ tr, t.1 < states.length := by
  unfold slrAutomaton at hA
  rcases haug : augmented G with _ | Gp'
  · rw [haug] at hA; exact Option.noConfusion hA
  · rw [haug] at hA
    dsimp only at hA
    rcases hpw : Gp'.productionsWithLeftSide Gp'.start with _ | ⟨p0, rest⟩
    · rw [hpw] at hA; exact Option.noConfusion hA
    · rcases rest with _ | ⟨p1, rest⟩
      · rw [hpw] at hA
        dsimp only at hA
        have h' := Option.some.inj hA
        have hGp := congrArg Prod.fst h'
        have hstates := congrArg (fun x => x.2.1) h'
        have htr := congrArg (fun x => x.2.2) h'
        dsimp only at hGp hstates htr
        rw [← hstates, ← htr]
        exact automatonLoop_trans_lt Gp' fuel 0 [[⟨p0, 0⟩]] []
          (by intro t ht; cases ht)
      · rw [hpw] at hA; exact Option.noConfusion hA

theorem fst_lt_length_of_mem_enum {α : Type} {l : List α} {x : Nat × α}
    (h : x ∈ l.enum) : x.1 < l.length := by
  rw [List.enum_eq_zip_range] at h
  have := List.of_mem_zip (by exact h)
  exact List.mem_range.mp this.1

theorem reduceStep_cell_mono (Gp : CFG) (fol : FolTable) (i : Nat)
    (Ii : List SItem) {b : SAction} {i' : Nat} {X : Sym} (rows : List ARow)
    (h : b ∈ actionCell rows i' X) :
    b ∈ actionCell (reduceStep Gp fol rows i Ii) i' X := by
  unfold reduceStep
  refine foldl_cell_mono ?_ _ rows h
  intro rows it b i' X h
  dsimp only
  by_cases hc : it.complete = true
  · simp only [hc, if_true]
    by_cases hs : it.production.left_side = Gp.start
    · simp only [hs, if_true]
      exact actionCell_addAction_mono _ _ _ h
    · simp only [hs, if_false]
      refine foldl_cell_mono ?_ _ rows h
      intro rows a b i' X h
      exact actionCell_addAction_mono _ _ _ h
  · simp only [hc, if_false, Bool.false_eq_true]
    exact h

theorem reduceStep_length (Gp : CFG) (fol : FolTable) (i : Nat)
    (Ii : List SItem) (rows : List ARow) :
    (reduceStep Gp fol rows i Ii).length = rows.length := by
  unfold reduceStep
  refine foldl_rows_length ?_ _ rows
  intro rows it
  dsimp only
  by_cases hc : it.complete = true
  · simp only [hc, if_true]
    by_cases hs : it.production.left_side = Gp.start
    · simp only [hs, if_true]
      exact addAction_length _ _ _ _
    · simp only [hs, if_false]
      refine foldl_rows_length ?_ _ rows
      intro rows a
      exact addAction_length _ _ _ _
  · simp [hc]

/-- C7 (amended): in the SLR `ParsingTable`, every cell `ACTION[i][a]` is
the list of all actions the construction adds for it, in construction order:
every shift from a terminal transition and every reduce for a terminal in
the FOLLOW set of a completed item's left side is retained (conflicts appear
as multi-valued cells rather than errors), but duplicate additions are *not*
suppressed — a grammar with duplicate rules yields duplicate entries
(`_add_action` appends unconditionally). -/
theorem action_table_retains_actions (G : CFG) (fuel : Nat)
    (Gp : CFG) (states : List (List SItem)) (tr : List (Nat × Sym × Nat))
    (hA : slrAutomaton G fuel = some (Gp, states, tr)) :
    ∃ rows, parsingTableAction G fuel = some rows ∧
      (∀ t ∈ tr, t.2.1.isTerminal = true →
        SAction.shift t.2.2 ∈ actionCell rows t.1 t.2.1) ∧
      (∀ x ∈ states.enum, ∀ it ∈ closureAllItems Gp x.2,
        it.complete = true → it.production.left_side ≠ Gp.start →
        ∀ a ∈ folLookup (followTable Gp fuel) it.production.left_side,
          SAction.reduce (Gp.productions.indexOf it.production) ∈
            actionCell rows x.1 a) := by
  have hshiftmono : ∀ (rows : List ARow) (t : Nat × Sym × Nat)
      (b : SAction) (i : Nat) (X : Sym), b ∈ actionCell rows i X →
      b ∈ actionCell
        (if t.2.1.isTerminal then addAction rows t.1 t.2.1 (.shift t.2.2)
          else rows) i X := by
    intro rows t b i X h
    by_cases ht : t.2.1.isTerminal = true
    · simp only [ht, if_true]
      exact actionCell_addAction_mono _ _ _ h
    · simp only [ht, if_false, Bool.false_eq_true]
      exact h
  have hshiftlen : ∀ (rows : List ARow) (t : Nat × Sym × Nat),
      (if t.2.1.isTerminal then addAction rows t.1 t.2.1 (.shift t.2.2)
        else rows).length = rows.length := by
    intro rows t
    by_cases ht : t.2.1.isTerminal = true
    · simp only [ht, if_true]
      exact addAction_length _ _ _ _
    · simp only [ht, if_false, Bool.false_eq_true]
  refine ⟨reduceFold Gp (followTable Gp fuel) states
    (shiftFold tr (states.map fun _ => ([] : ARow))), ?_, ?_, ?_⟩
  · unfold parsingTableAction
    rw [hA]
    rfl
  · -- every shift action survives
    intro t ht hterm
    have hlt : t.1 < states.length := slrAutomaton_trans_lt hA t ht
    have hbase : SAction.shift t.2.2 ∈ actionCell
        (shiftFold tr (states.map fun _ => ([] : ARow))) t.1 t.2.1 := by
      unfold shiftFold
      refine foldl_cell_point hshiftmono hshiftlen ht states.length
        ?_ _ (by simp)
      intro rows' hlen'
      simp only [hterm, if_true]
      rw [actionCell_addAction_self _ _ _ _ (hlen' ▸ hlt)]
      exact List.mem_append_right _ (List.mem_singleton.mpr rfl)
    unfold reduceFold
    refine foldl_cell_mono ?_ _ _ hbase
    intro rows x b i X h
    exact reduceStep_cell_mono Gp _ x.1 x.2 rows h

  · -- every reduce action survives
    intro x hx it hit hcomp hns a ha
    have hxlt : x.1 < states.length := fst_lt_length_of_mem_enum hx
    unfold reduceFold
    refine foldl_cell_point
      (fun rows x b i X h => reduceStep_cell_mono Gp _ x.1 x.2 rows h)
      (fun rows x => reduceStep_length Gp _ x.1 x.2 rows)
      hx states.length ?_ _ ?_
    · intro rows' hlen'
      unfold reduceStep
      refine foldl_cell_point ?_ ?_ hit states.length ?_ _ hlen'
      · intro rows it b i X h
        dsimp only
        by_cases hc : it.complete = true
        · simp only [hc, if_true]
          by_cases hs : it.production.left_side = Gp.start
          · simp only [hs, if_true]
            exact actionCell_addAction_mono _ _ _ h
          · simp only [hs, if_false]
            refine foldl_cell_mono ?_ _ rows h
            intro rows a b i X h
            exact actionCell_addAction_mono _ _ _ h
        · simp only [hc, if_false, Bool.false_eq_true]
          exact h
      · intro rows it
        dsimp only
        by_cases hc : it.complete = true
        · simp only [hc, if_true]
          by_cases hs : it.production.left_side = Gp.start
          · simp only [hs, if_true]
            exact addAction_length _ _ _ _
          · simp only [hs, if_false]
            refine foldl_rows_length ?_ _ rows
            intro rows a
            exact addAction_length _ _ _ _
        · simp [hc]
      · intro rows'' hlen''
        dsimp only
        simp only [hcomp, if_true, hns, if_false]
        refine foldl_cell_point
          (fun rows a b i X h => actionCell_addAction_mono _ _ _ h)
          (fun rows a => addAction_length _ _ _ _)
          ha states.length ?_ _ hlen''
        intro rows3 hlen3
        rw [actionCell_addAction_self _ _ _ _ (hlen3 ▸ hxlt)]
        exact List.mem_append_right _ (List.mem_singleton.mpr rfl)
    · unfold shiftFold
      rw [foldl_rows_length hshiftlen]
      simp

/-- C7 counterexample: the claim says every cell `ACTION[i][a]` contains no
duplicate action entries.  For the grammar `S → a | a` (duplicate rules),
state 2 of the automaton holds the completed item `S → a·` twice, and
`_add_action` appends without checking, so `ACTION[2][$]` is
`[reduce 1, reduce 1]` — the same action twice. -/
theorem action_cell_duplicate_entries :
    parsingTableAction gDup 50 = some gDupRows ∧
      actionCell gDupRows 2 (Sym.marker "$") =
        [SAction.reduce 1, SAction.reduce 1] := by
  constructor
  · decide
  · decide

/-- Witness for `action_table_retains_actions` at the duplicate-rule grammar
`gDup`: the shift on `a` and the reduce under `$` are both present in their
cells. -/
theorem action_table_retains_actions_witness :
    SAction.shift 2 ∈ actionCell gDupRows 0 (Sym.tm "a") ∧
      SAction.reduce 1 ∈ actionCell gDupRows 2 (Sym.marker "$") := by
  obtain ⟨rows, hrows, hshift, hreduce⟩ :=
    action_table_retains_actions gDup 50 gDupAug gDupStates gDupTrans
      (by decide)
  have hrw : rows = gDupRows := by
    rw [show parsingTableAction gDup 50 = some gDupRows from by decide]
      at hrows
    exact (Option.some.inj hrows).symm
  subst hrw
  constructor
  · exact hshift (0, Sym.tm "a", 2) (by decide) (by decide)
  · exact hreduce
      (2, [⟨⟨Sym.nt "S", [Sym.tm "a"]⟩, 1⟩, ⟨⟨Sym.nt "S", [Sym.tm "a"]⟩, 1⟩])
      (by decide)
      ⟨⟨Sym.nt "S", [Sym.tm "a"]⟩, 1⟩ (by decide) (by decide) (by decide)
      (Sym.marker "$") (by decide)

/-! ### C1: the FIRST set table -/

/-- C1: the claim says `FirstSetTable` computes `terminals(A)` as exactly the
terminals that can begin a string derived from `A`.  On the grammar
`A → B; B → ε | C; C → c` the code computes `FIRST(A) = ∅` (with `A`
nullable), although `A ⇒ B ⇒ C ⇒ c`, so `c` begins a string derivable from
`A` and the least fixpoint of the spec's walk rule puts `c` into `FIRST(A)`:
`_compute` drops the rule `A → B` from its worklist in the pass that first
walks past the (by then nullable) `B`, and additions made to `FIRST(B)`
afterwards are never propagated to `FIRST(A)`. -/
theorem firstSetTable_misses_terminal :
    firstTerminals gFirstBug (Sym.nt "A") = [] ∧
      firstNullable gFirstBug (Sym.nt "A") = true ∧
      DerivesPlus gFirstBug [Sym.nt "A"] [Sym.tm "c"] := by
  refine ⟨by decide, by decide, ?_⟩
  have h1 : Rewrite gFirstBug [Sym.nt "A"] [Sym.nt "B"] := by
    simpa using Rewrite.head ⟨Sym.nt "A", [Sym.nt "B"]⟩ (by decide) []
  have h2 : Rewrite gFirstBug [Sym.nt "B"] [Sym.nt "C"] := by
    simpa using Rewrite.head ⟨Sym.nt "B", [Sym.nt "C"]⟩ (by decide) []
  have h3 : Rewrite gFirstBug [Sym.nt "C"] [Sym.tm "c"] := by
    simpa using Rewrite.head ⟨Sym.nt "C", [Sym.tm "c"]⟩ (by decide) []
  exact Relation.TransGen.head h1 (Relation.TransGen.head h2
    (Relation.TransGen.single h3))

end PyCfg
